import Mathlib

/-!
# Verification of the equal-payout (dutching) allocation core

This file embeds the allocation core of `src/main.py` (lines 327-381):
fractional-odds parsing (`frac_to_decimal`), header parsing (`parse_header`),
the equal-payout stake computation with largest-remainder cent rounding
(`equal_payout_stakes`), and the total-stake quantization performed by the
`allocate` command.

Modelling conventions:
* Python `Decimal` values are modelled as exact rationals (`ℚ`).  The spec
  states the arithmetic is "exact decimal arithmetic"; the quantities involved
  are far below the 28-significant-digit context limit of `decimal`, so the
  exact-rational reading is the faithful one.  The explicit rounding steps of
  the source (`quantize(... ROUND_DOWN)`, `to_integral_value(ROUND_HALF_UP)`,
  default `quantize` = ROUND_HALF_EVEN) are modelled by explicit functions.
* Fallible code (Python `raise`) is modelled with `Except String`.
  `Decimal` division by zero raises; the only zero divisor reachable in the
  engine is `inv_sum == 0`, which is checked explicitly.  (The odds produced
  by the parser are always ≥ 1, hence nonzero; theorems about the engine carry
  that hypothesis.)
* Python's `list.sort(key=..., reverse=True)` is stable, so on the residual
  list - whose first components are the distinct indices 0..n-1 - it produces
  exactly the permutation sorted by the total order "residual descending,
  index ascending".  The embedding sorts by that total order.
-/

/-! ## Definitions -/

/-- Truncation of a rational to an integer, rounding toward zero
(the integer part, as `Decimal` `ROUND_DOWN`). -/
def truncInt (x : ℚ) : ℤ := if 0 ≤ x then ⌊x⌋ else -⌊-x⌋

/-- Model of `q.quantize(Decimal("0.01"), rounding=ROUND_DOWN)`: truncate to whole
cents (toward zero). -/
def truncCent (x : ℚ) : ℚ := (truncInt (x * 100) : ℚ) / 100

/-- Model of `Decimal` `ROUND_HALF_UP` to an integral value: round to the nearest
integer, ties away from zero. -/
def roundHalfUpInt (x : ℚ) : ℤ := if 0 ≤ x then ⌊x + 1/2⌋ else -⌊-x + 1/2⌋

/-- Model of `Decimal` `ROUND_HALF_EVEN` to an integral value: round to the nearest
integer, ties to the even integer. -/
def halfEvenInt (x : ℚ) : ℤ :=
  if x - ⌊x⌋ < 1/2 then ⌊x⌋
  else if 1/2 < x - ⌊x⌋ then ⌊x⌋ + 1
  else if 2 ∣ ⌊x⌋ then ⌊x⌋ else ⌊x⌋ + 1

/-- Model of `q.quantize(Decimal("0.01"))` with the default context rounding
(ROUND_HALF_EVEN): round to whole cents, ties to even. -/
def quantHalfEvenCent (x : ℚ) : ℚ := (halfEvenInt (x * 100) : ℚ) / 100

/-- Model of `inv_sum = sum(Decimal("1") / o for o in dec_odds_list)` (line 360). -/
def invSum (odds : List ℚ) : ℚ := (odds.map (fun o => 1 / o)).sum

/-- Model of `W = total_stake / inv_sum` (line 361): the common theoretical payout. -/
def Wpay (total : ℚ) (odds : List ℚ) : ℚ := total / invSum odds

/-- Model of `raw = [W / o for o in dec_odds_list]` (line 362): the theoretical
(infinite-precision) per-entry stakes. -/
def rawStakes (total : ℚ) (odds : List ℚ) : List ℚ :=
  odds.map (fun o => Wpay total odds / o)

/-- Model of `rounded = [r.quantize(Decimal("0.01"), rounding=ROUND_DOWN) for r in raw]`
(line 363): the stakes floored to whole cents. -/
def flooredStakes (total : ℚ) (odds : List ℚ) : List ℚ :=
  (rawStakes total odds).map truncCent

/-- Model of `residuals = [(i, raw[i] - rounded[i]) for i in range(len(raw))]`
(line 365). -/
def residualList (total : ℚ) (odds : List ℚ) : List (ℕ × ℚ) :=
  (List.range odds.length).map (fun i =>
    (i, (rawStakes total odds).getD i 0 - (flooredStakes total odds).getD i 0))

/-- The order used by `residuals.sort(key=lambda t: t[1], reverse=True)`
(line 366): residual descending, ties broken by the original index ascending
(Python's sort is stable and the residual list is indexed in input order). -/
def resLE (a b : ℕ × ℚ) : Prop := b.2 < a.2 ∨ (a.2 = b.2 ∧ a.1 ≤ b.1)

instance : DecidableRel resLE := fun a b => by
  unfold resLE; infer_instance

instance : IsTotal (ℕ × ℚ) resLE where
  total a b := by
    rcases lt_trichotomy a.2 b.2 with h | h | h
    · exact Or.inr (Or.inl h)
    · rcases Nat.le_total a.1 b.1 with h2 | h2
      · exact Or.inl (Or.inr ⟨h, h2⟩)
      · exact Or.inr (Or.inr ⟨h.symm, h2⟩)
    · exact Or.inl (Or.inl h)

instance : IsTrans (ℕ × ℚ) resLE where
  trans a b c hab hbc := by
    rcases hab with hab | ⟨hab1, hab2⟩
    · rcases hbc with hbc | ⟨hbc1, hbc2⟩
      · exact Or.inl (hbc.trans hab)
      · exact Or.inl (hbc1 ▸ hab)
    · rcases hbc with hbc | ⟨hbc1, hbc2⟩
      · exact Or.inl (hab1 ▸ hbc)
      · exact Or.inr ⟨hab1.trans hbc1, hab2.trans hbc2⟩

/-- The residual list sorted by residual descending, stable in the original
index (line 366). -/
def sortedResiduals (total : ℚ) (odds : List ℚ) : List (ℕ × ℚ) :=
  List.insertionSort resLE (residualList total odds)

/-- Model of `diff = total_stake - sum(rounded)` and
`cents = int((diff * 100).to_integral_value(rounding=ROUND_HALF_UP))`
(lines 364, 367): the whole-cent deficit still owed. -/
def deficitCents (total : ℚ) (odds : List ℚ) : ℤ :=
  roundHalfUpInt ((total - (flooredStakes total odds).sum) * 100)

/-- Model of `rounded[idx] += Decimal("0.01")` (line 370): add one cent at `idx`. -/
def bumpCent (st : List ℚ) (idx : ℕ) : List ℚ :=
  st.set idx (st.getD idx 0 + 1/100)

/-- The sequence of indices bumped by the loop
`for i in range(cents): idx = residuals[i % len(raw)][0]` (lines 368-369):
the i-th cent goes to the first component of the sorted residual entry at
position `i % len(order)`. -/
def targetsOf (order : List (ℕ × ℚ)) (cents : ℕ) : List ℕ :=
  (List.range cents).map (fun k => (order.getD (k % order.length) (0, 0)).1)

/-- The cent-distribution loop (lines 368-370). -/
def distributeCents (order : List (ℕ × ℚ)) (st : List ℚ) (cents : ℕ) : List ℚ :=
  (targetsOf order cents).foldl bumpCent st

/-- Error message for division by zero (`Decimal` raises `DivisionByZero`
when `inv_sum` is zero at line 361). -/
def divZeroMsg : String := String.mk ['D','i','v','i','s','i','o','n','B','y','Z','e','r','o']

/-- Model of `equal_payout_stakes(total_stake, dec_odds_list)` (lines 359-371).
For an empty odds list `inv_sum` is `0` and the division `total / inv_sum`
raises; this is modelled by the explicit zero test.  Python's `range(cents)`
is empty for negative `cents`, modelled by `Int.toNat`. -/
def equal_payout_stakes (total : ℚ) (odds : List ℚ) : Except String (ℚ × List ℚ) :=
  if invSum odds = 0 then .error divZeroMsg
  else .ok (Wpay total odds,
    distributeCents (sortedResiduals total odds) (flooredStakes total odds)
      (deficitCents total odds).toNat)

/-- The engine invocation performed by the `allocate` command (lines 379-381):
`total_stake = (units * unit_value).quantize(Decimal("0.01"))` (default
rounding, i.e. ROUND_HALF_EVEN) and then `equal_payout_stakes(total_stake, decs)`. -/
def allocate_stakes (units unit_value : ℚ) (odds : List ℚ) : Except String (ℚ × List ℚ) :=
  equal_payout_stakes (quantHalfEvenCent (units * unit_value)) odds

/-- Model of `raw[i]`: the i-th theoretical stake. -/
def rawAt (total : ℚ) (odds : List ℚ) (i : ℕ) : ℚ := (rawStakes total odds).getD i 0

/-- Model of `rounded[i]` before cent distribution: the i-th floored stake. -/
def flAt (total : ℚ) (odds : List ℚ) (i : ℕ) : ℚ := (flooredStakes total odds).getD i 0

/-- Model of `raw[i] - rounded[i]`: the i-th rounding residual. -/
def residAt (total : ℚ) (odds : List ℚ) (i : ℕ) : ℚ :=
  rawAt total odds i - flAt total odds i

/-- The total floored stake in integer cents. -/
def Mints (total : ℚ) (odds : List ℚ) : ℤ :=
  ((rawStakes total odds).map (fun r => truncInt (r * 100))).sum

def isDigitC (c : Char) : Bool := decide ('0' ≤ c) && decide (c ≤ '9')

def isSpaceC (c : Char) : Bool :=
  c == ' ' || c == '\t' || c == '\n' || c == '\r' || c == '\x0b' || c == '\x0c'

/-- A matched number token `\d+(?:\.\d+)?`: the integer digit block and an
optional fractional digit block. -/
structure Numeral where
  intPart : List Char
  fracPart : Option (List Char)
deriving DecidableEq

/-- Well-formedness of a number token: nonempty digit blocks. -/
def Numeral.WF (n : Numeral) : Prop :=
  n.intPart ≠ [] ∧ (∀ c ∈ n.intPart, isDigitC c) ∧
    ∀ f, n.fracPart = some f → (f ≠ [] ∧ ∀ c ∈ f, isDigitC c)

/-- The text of a number token. -/
def Numeral.render (n : Numeral) : List Char :=
  n.intPart ++ (match n.fracPart with | none => [] | some f => '.' :: f)

def digitVal (c : Char) : ℕ := c.toNat - 48

def digitsVal (l : List Char) : ℕ := l.foldl (fun a c => 10 * a + digitVal c) 0

/-- The decimal value of a number token (what `Decimal(text)` denotes). -/
def Numeral.val (n : Numeral) : ℚ :=
  (digitsVal n.intPart : ℚ) +
    (match n.fracPart with
     | none => 0
     | some f => (digitsVal f : ℚ) / (10 : ℚ) ^ f.length)

/-- Greedy parse of `\d+(?:\.\d+)?` at the head of the input, returning the
token and the remaining input.  Maximal munch matches the regex engine here
because in both regexes nothing that may legally follow the token starts
with a digit, and a dot-digit continuation can never be skipped usefully. -/
def parseNum (cs : List Char) : Option (Numeral × List Char) :=
  let ds := cs.takeWhile isDigitC
  if ds.isEmpty then none
  else
    let r1 := cs.dropWhile isDigitC
    match r1 with
    | c :: r2 =>
        if c = '.' then
          let fs := r2.takeWhile isDigitC
          if fs.isEmpty then some (⟨ds, none⟩, r1)
          else some (⟨ds, some fs⟩, r2.dropWhile isDigitC)
        else some (⟨ds, none⟩, r1)
    | [] => some (⟨ds, none⟩, r1)

/-- Model of `re.fullmatch` of `\s*(\d+(?:\.\d+)?)\s*/\s*(\d+(?:\.\d+)?)\s*`
(src/main.py line 328). -/
def fracMatch (cs : List Char) : Option (Numeral × Numeral) :=
  match parseNum (cs.dropWhile isSpaceC) with
  | none => none
  | some (n, r1) =>
    match r1.dropWhile isSpaceC with
    | c :: r3 =>
      if c = '/' then
        match parseNum (r3.dropWhile isSpaceC) with
        | none => none
        | some (d, r5) => if r5.all isSpaceC then some (n, d) else none
      else none
    | [] => none

def badFracMsg : String :=
  String.mk ['B','a','d',' ','f','r','a','c','t','i','o','n','a','l',' ','o','d','d','s']

def zeroDenMsg : String :=
  String.mk ['D','e','n','o','m','i','n','a','t','o','r',' ','c','a','n','n','o','t',' ','b','e',' ','z','e','r','o']

/-- Model of `frac_to_decimal(frac_str)` (src/main.py lines 327-335):
match the fraction grammar, reject a zero denominator, and return
`num/den + 1`. -/
def frac_to_decimal (s : String) : Except String ℚ :=
  match fracMatch s.data with
  | none => .error badFracMsg
  | some (n, d) =>
      if d.val = 0 then .error zeroDenMsg
      else .ok (n.val / d.val + 1)

/-- Every character of the list is whitespace. -/
def AllSpaces (l : List Char) : Prop := ∀ c ∈ l, isSpaceC c

/-- The fraction grammar of line 328 as a structural predicate: optional
whitespace, a number token, optional whitespace, `/`, optional whitespace,
a number token, optional whitespace. -/
def FracGrammar (cs : List Char) (n d : Numeral) : Prop :=
  Numeral.WF n ∧ Numeral.WF d ∧
    ∃ s1 s2 s3 s4, AllSpaces s1 ∧ AllSpaces s2 ∧ AllSpaces s3 ∧ AllSpaces s4 ∧
      cs = s1 ++ n.render ++ s2 ++ '/' :: (s3 ++ d.render ++ s4)

/-- Case-insensitive match of an input character `a` against a pattern
character `b` (`re.IGNORECASE`, for the ASCII patterns used here): `a`
equals `b`, or `b` is a lowercase letter and `a` is its uppercase form. -/
def ciChar (a b : Char) : Bool :=
  a == b || ((decide ('a' ≤ b) && decide (b ≤ 'z')) && a == Char.ofNat (b.toNat - 32))

/-- The literal command token required by the regex at line 338. -/
def headerLit : List Char := ['!', 'a', 'l', 'l', 'o', 'c', 'a', 't', 'e']

/-- Match a pattern literal case-insensitively at the head of the input,
returning the rest of the input. -/
def matchLit : List Char → List Char → Option (List Char)
  | [], cs => some cs
  | _ :: _, [] => none
  | l :: ls, c :: cs => if ciChar c l then matchLit ls cs else none

/-- Attempt `!allocate\s+(\d+(?:\.\d+)?)\s*u\b\s+\$?\s*(\d+(?:\.\d+)?)`
(line 338, IGNORECASE) at the start of the input.  The `\b` after `u` is
subsumed by the mandatory whitespace `\s+` that follows it. -/
def headerMatchAt (cs : List Char) : Option (Numeral × Numeral) :=
  match matchLit headerLit cs with
  | none => none
  | some r0 =>
    if (r0.takeWhile isSpaceC).isEmpty then none
    else
      match parseNum (r0.dropWhile isSpaceC) with
      | none => none
      | some (n, r2) =>
        match r2.dropWhile isSpaceC with
        | c :: r4 =>
          if ciChar c 'u' then
            if (r4.takeWhile isSpaceC).isEmpty then none
            else
              match (match r4.dropWhile isSpaceC with
                     | c2 :: t => if c2 = '$' then t.dropWhile isSpaceC
                                  else r4.dropWhile isSpaceC
                     | [] => r4.dropWhile isSpaceC) with
              | r6 =>
                match parseNum r6 with
                | none => none
                | some (d, _) => some (n, d)
          else none
        | [] => none

/-- Model of `re.search`: try the pattern at every start position, leftmost first. -/
def headerSearch : List Char → Option (Numeral × Numeral)
  | [] => headerMatchAt []
  | c :: cs =>
    match headerMatchAt (c :: cs) with
    | some r => some r
    | none => headerSearch cs

def headerErrMsg : String :=
  String.mk ['H','e','a','d','e','r',' ','m','u','s','t',' ','l','o','o','k',' ',
    'l','i','k','e',':',' ','!','a','l','l','o','c','a','t','e',' ','1','u',' ','$','1','0']

/-- Model of `parse_header(line)` (lines 337-343): search the header pattern anywhere
in the line; on success return `(units, unit_value)` as decimal values. -/
def parse_header (line : String) : Except String (ℚ × ℚ) :=
  match headerSearch line.data with
  | none => .error headerErrMsg
  | some (u, a) => .ok (u.val, a.val)

/-- The code's header pattern at a fixed position, structurally: the
(case-insensitive) `!allocate` literal, mandatory whitespace, the count
token, optional whitespace, `u`/`U`, mandatory whitespace, an optional `$`,
optional whitespace, the amount token, then anything. -/
def HeaderAtVal (cs : List Char) (u a : ℚ) : Prop :=
  ∃ lit s1 n s2 uc s3 dol s4 d rest,
    List.Forall₂ (fun x y => ciChar x y = true) lit headerLit ∧
    AllSpaces s1 ∧ s1 ≠ [] ∧ Numeral.WF n ∧ AllSpaces s2 ∧
    ciChar uc 'u' = true ∧ AllSpaces s3 ∧ s3 ≠ [] ∧
    (dol = ([] : List Char) ∨ dol = ['$']) ∧ AllSpaces s4 ∧ Numeral.WF d ∧
    Numeral.val n = u ∧ Numeral.val d = a ∧
    cs = lit ++ (s1 ++ (n.render ++ (s2 ++ (uc ::
      (s3 ++ (dol ++ (s4 ++ (d.render ++ rest))))))))

/-- The code's header pattern occurring anywhere in the line (`re.search`),
with the values of the two captured number tokens. -/
def HeaderPatternVal (cs : List Char) (u a : ℚ) : Prop :=
  ∃ pre suffix, cs = pre ++ suffix ∧ HeaderAtVal suffix u a

/-- The code's header pattern occurring anywhere in the line. -/
def HeaderPattern (cs : List Char) : Prop := ∃ u a, HeaderPatternVal cs u a

/-- The claimed header grammar: `<count>"u"` then an optional currency
symbol then `<amount>`, with optional whitespace between the parts and
arbitrary surrounding text - but with no command token required.  This is
the grammar of claim C6 (spec section 6: "optional leading command token"). -/
def ClaimHeaderPattern (cs : List Char) : Prop :=
  ∃ pre n s1 dol s2 d rest,
    Numeral.WF n ∧ Numeral.WF d ∧ AllSpaces s1 ∧ AllSpaces s2 ∧
    (dol = ([] : List Char) ∨ dol = ['$']) ∧
    cs = pre ++ (n.render ++ ('u' :: (s1 ++ (dol ++ (s2 ++ (d.render ++ rest))))))

/-! ## Theorems -/

/-! ## Claim C7: empty odds list fails explicitly -/

/-- C7. When the decimal-odds list is empty, `equal_payout_stakes` fails
with an explicit divide-by-zero error (it raises rather than returning NaN or
an undefined result), for every total stake. -/
theorem claim7_empty_error (total : ℚ) :
    equal_payout_stakes total [] = .error divZeroMsg := by
  simp [equal_payout_stakes, invSum]

/-! ## Rounding lemmas -/
theorem truncInt_of_nonneg {x : ℚ} (hx : 0 ≤ x) : truncInt x = ⌊x⌋ := if_pos hx

theorem truncCent_le {x : ℚ} (hx : 0 ≤ x) : truncCent x ≤ x := by
  unfold truncCent
  rw [truncInt_of_nonneg (by positivity), div_le_iff₀ (by norm_num)]
  exact Int.floor_le _

theorem lt_truncCent_add {x : ℚ} (hx : 0 ≤ x) : x < truncCent x + 1 / 100 := by
  unfold truncCent
  rw [truncInt_of_nonneg (by positivity)]
  have h := Int.lt_floor_add_one (x * 100)
  linarith

theorem truncCent_nonneg {x : ℚ} (hx : 0 ≤ x) : 0 ≤ truncCent x := by
  unfold truncCent
  rw [truncInt_of_nonneg (by positivity)]
  have h : (0 : ℤ) ≤ ⌊x * 100⌋ := Int.floor_nonneg.mpr (by positivity)
  have h2 : (0 : ℚ) ≤ (⌊x * 100⌋ : ℚ) := by exact_mod_cast h
  linarith

theorem floor_half_rat : ⌊(1 / 2 : ℚ)⌋ = 0 := by
  rw [Int.floor_eq_zero_iff, Set.mem_Ico]
  norm_num

theorem roundHalfUpInt_intCast (z : ℤ) : roundHalfUpInt (z : ℚ) = z := by
  unfold roundHalfUpInt
  split_ifs with h
  · rw [Int.floor_int_add, floor_half_rat, add_zero]
  · rw [show -(z : ℚ) + 1 / 2 = ((-z : ℤ) : ℚ) + 1 / 2 by push_cast; ring,
      Int.floor_int_add, floor_half_rat, add_zero, neg_neg]

theorem halfEvenInt_nonneg {x : ℚ} (hx : 0 ≤ x) : 0 ≤ halfEvenInt x := by
  unfold halfEvenInt
  have h : (0 : ℤ) ≤ ⌊x⌋ := Int.floor_nonneg.mpr hx
  split_ifs <;> omega

theorem quantHalfEvenCent_nonneg {x : ℚ} (hx : 0 ≤ x) : 0 ≤ quantHalfEvenCent x := by
  unfold quantHalfEvenCent
  have h := halfEvenInt_nonneg (show (0 : ℚ) ≤ x * 100 by positivity)
  have h2 : (0 : ℚ) ≤ (halfEvenInt (x * 100) : ℚ) := by exact_mod_cast h
  exact div_nonneg h2 (by norm_num)

/-! ## List update and fold helpers -/
theorem getD_set_cases : ∀ (st : List ℚ) (i j : ℕ) (v : ℚ), j < st.length →
    (st.set i v).getD j 0 = if i = j then v else st.getD j 0
  | [], _, _, _, h => absurd h (by simp)
  | a :: t, 0, 0, v, _ => by simp
  | a :: t, 0, j + 1, v, _ => by simp
  | a :: t, i + 1, 0, v, _ => by simp
  | a :: t, i + 1, j + 1, v, h => by
      have ih := getD_set_cases t i j v (by simpa using h)
      simpa [Nat.succ_inj] using ih

theorem sum_set_eq : ∀ (st : List ℚ) (i : ℕ) (v : ℚ), i < st.length →
    (st.set i v).sum = st.sum - st.getD i 0 + v
  | [], _, _, h => absurd h (by simp)
  | a :: t, 0, v, _ => by simp; ring
  | a :: t, i + 1, v, h => by
      have ih := sum_set_eq t i v (by simpa using h)
      simp [ih]
      ring

theorem bumpCent_length (st : List ℚ) (i : ℕ) : (bumpCent st i).length = st.length := by
  simp [bumpCent]

theorem bumpCent_sum {st : List ℚ} {i : ℕ} (h : i < st.length) :
    (bumpCent st i).sum = st.sum + 1 / 100 := by
  unfold bumpCent
  rw [sum_set_eq st i _ h]
  ring

theorem bumpCent_getD {st : List ℚ} {i j : ℕ} (hj : j < st.length) :
    (bumpCent st i).getD j 0 = st.getD j 0 + if i = j then 1 / 100 else 0 := by
  unfold bumpCent
  rw [getD_set_cases st i j _ hj]
  by_cases h : i = j
  · subst h; simp
  · simp [h]

theorem foldlBump_length : ∀ (ts : List ℕ) (st : List ℚ),
    (ts.foldl bumpCent st).length = st.length
  | [], _ => rfl
  | t :: ts, st => by
      rw [List.foldl_cons, foldlBump_length ts, bumpCent_length]

theorem foldlBump_sum : ∀ (ts : List ℕ) (st : List ℚ), (∀ t ∈ ts, t < st.length) →
    (ts.foldl bumpCent st).sum = st.sum + (ts.length : ℚ) * (1 / 100)
  | [], st, _ => by simp
  | t :: ts, st, h => by
      rw [List.foldl_cons,
        foldlBump_sum ts (bumpCent st t)
          (fun x hx => by rw [bumpCent_length]; exact h x (List.mem_cons_of_mem _ hx)),
        bumpCent_sum (h t (List.mem_cons_self _ _))]
      simp only [List.length_cons]
      push_cast
      ring

theorem foldlBump_getD : ∀ (ts : List ℕ) (st : List ℚ) (j : ℕ),
    j < st.length →
    (ts.foldl bumpCent st).getD j 0 = st.getD j 0 + (ts.count j : ℚ) * (1 / 100)
  | [], st, j, _ => by simp
  | t :: ts, st, j, hj => by
      rw [List.foldl_cons,
        foldlBump_getD ts (bumpCent st t) j (by rw [bumpCent_length]; exact hj),
        bumpCent_getD hj]
      by_cases h : t = j
      · subst h
        rw [List.count_cons_self]
        push_cast
        simp only [eq_self_iff_true, if_true]
        ring
      · rw [List.count_cons_of_ne (fun hh => h hh.symm)]
        simp [h]

theorem two_le_length_of_mem_ne {l : List ℕ} {a b : ℕ}
    (ha : a ∈ l) (hb : b ∈ l) (hab : a ≠ b) : 2 ≤ l.length := by
  match l with
  | [] => exact absurd ha (by simp)
  | [x] =>
      simp only [List.mem_singleton] at ha hb
      exact absurd (ha.trans hb.symm) hab
  | x :: y :: t => simp [Nat.le_add_left]

theorem rangeMap_getD_eq_take {α : Type _} (d : α) :
    ∀ (l : List α) (c : ℕ), c ≤ l.length →
      (List.range c).map (fun k => l.getD k d) = l.take c
  | l, 0, _ => by simp
  | [], c + 1, h => by simp at h
  | a :: t, c + 1, h => by
      have ih := rangeMap_getD_eq_take d t c (by simpa using h)
      rw [List.range_succ_eq_map, List.map_cons, List.map_map, List.take_succ_cons]
      simp only [Function.comp_def, List.getD_cons_zero, List.getD_cons_succ]
      rw [ih]

/-! ## Positional access helpers -/
theorem getD_map_any {α β : Type _} (f : α → β) :
    ∀ (l : List α) (i : ℕ), i < l.length → ∀ (d : β) (e : α),
      (l.map f).getD i d = f (l.getD i e)
  | [], i, h, _, _ => absurd h (by simp)
  | a :: t, 0, _, d, e => by simp
  | a :: t, i + 1, h, d, e => by
      simp only [List.map_cons, List.getD_cons_succ]
      exact getD_map_any f t i (by simpa using h) d e

theorem getD_mem_of_lt {α : Type _} : ∀ (l : List α) (i : ℕ) (d : α),
    i < l.length → l.getD i d ∈ l
  | [], _, _, h => absurd h (by simp)
  | a :: t, 0, d, _ => List.mem_cons_self _ _
  | a :: t, i + 1, d, h =>
      List.mem_cons_of_mem _ (getD_mem_of_lt t i d (by simpa using h))

theorem sum_map_sub (f g : ℚ → ℚ) :
    ∀ l : List ℚ, (l.map (fun x => f x - g x)).sum = (l.map f).sum - (l.map g).sum
  | [] => by simp
  | a :: t => by
      simp only [List.map_cons, List.sum_cons, sum_map_sub f g t]
      ring

/-! ## Basic engine facts -/
theorem invSum_pos {odds : List ℚ} (hne : odds ≠ []) (h1 : ∀ o ∈ odds, 1 ≤ o) :
    0 < invSum odds := by
  match odds with
  | [] => exact absurd rfl hne
  | o :: rest =>
      have ho : 0 < o := lt_of_lt_of_le one_pos (h1 o (List.mem_cons_self _ _))
      have hpos : 0 < 1 / o := by positivity
      have hrest : 0 ≤ (rest.map (fun x => 1 / x)).sum := by
        apply List.sum_nonneg
        intro x hx
        rcases List.mem_map.mp hx with ⟨y, hy, rfl⟩
        have hy1 : 0 < y := lt_of_lt_of_le one_pos (h1 y (List.mem_cons_of_mem _ hy))
        positivity
      unfold invSum
      rw [List.map_cons, List.sum_cons]
      linarith

theorem rawStakes_sum {total : ℚ} {odds : List ℚ} (hinv : invSum odds ≠ 0) :
    (rawStakes total odds).sum = total := by
  unfold rawStakes Wpay
  have hfun : (fun o : ℚ => total / invSum odds / o)
      = (fun o : ℚ => (total / invSum odds) * (1 / o)) := by
    funext o
    rw [mul_one_div]
  rw [hfun, List.sum_map_mul_left]
  exact div_mul_cancel₀ total hinv

theorem Wpay_nonneg {total : ℚ} {odds : List ℚ} (ht : 0 ≤ total)
    (hinv : 0 < invSum odds) : 0 ≤ Wpay total odds :=
  div_nonneg ht hinv.le

theorem rawStakes_mem_nonneg {total : ℚ} {odds : List ℚ} (ht : 0 ≤ total)
    (hinv : 0 < invSum odds) (h1 : ∀ o ∈ odds, 1 ≤ o) :
    ∀ r ∈ rawStakes total odds, 0 ≤ r := by
  intro r hr
  rcases List.mem_map.mp hr with ⟨o, ho, rfl⟩
  have hop : 0 < o := lt_of_lt_of_le one_pos (h1 o ho)
  exact div_nonneg (Wpay_nonneg ht hinv) hop.le

theorem residualList_eq (total : ℚ) (odds : List ℚ) :
    residualList total odds
      = (List.range odds.length).map (fun i => (i, residAt total odds i)) := rfl

theorem rawStakes_length (total : ℚ) (odds : List ℚ) :
    (rawStakes total odds).length = odds.length := by
  unfold rawStakes; simp

theorem flooredStakes_length (total : ℚ) (odds : List ℚ) :
    (flooredStakes total odds).length = odds.length := by
  unfold flooredStakes rawStakes; simp

theorem rawAt_nonneg {total : ℚ} {odds : List ℚ} (ht : 0 ≤ total)
    (hinv : 0 < invSum odds) (h1 : ∀ o ∈ odds, 1 ≤ o) {i : ℕ}
    (hi : i < odds.length) : 0 ≤ rawAt total odds i := by
  have hm : rawAt total odds i ∈ rawStakes total odds := by
    unfold rawAt
    exact getD_mem_of_lt _ _ _ (by rw [rawStakes_length]; exact hi)
  exact rawStakes_mem_nonneg ht hinv h1 _ hm

theorem flAt_eq_truncCent {total : ℚ} {odds : List ℚ} {i : ℕ}
    (hi : i < odds.length) : flAt total odds i = truncCent (rawAt total odds i) := by
  unfold flAt flooredStakes rawAt
  exact getD_map_any truncCent _ i (by rw [rawStakes_length]; exact hi) 0 0

theorem residAt_nonneg {total : ℚ} {odds : List ℚ} (ht : 0 ≤ total)
    (hinv : 0 < invSum odds) (h1 : ∀ o ∈ odds, 1 ≤ o) {i : ℕ}
    (hi : i < odds.length) : 0 ≤ residAt total odds i := by
  unfold residAt
  rw [flAt_eq_truncCent hi]
  have := truncCent_le (rawAt_nonneg ht hinv h1 hi)
  linarith

theorem residAt_lt {total : ℚ} {odds : List ℚ} (ht : 0 ≤ total)
    (hinv : 0 < invSum odds) (h1 : ∀ o ∈ odds, 1 ≤ o) {i : ℕ}
    (hi : i < odds.length) : residAt total odds i < 1 / 100 := by
  unfold residAt
  rw [flAt_eq_truncCent hi]
  have := lt_truncCent_add (rawAt_nonneg ht hinv h1 hi)
  linarith

/-! ## Sorted residual facts -/
theorem sortedResiduals_perm (total : ℚ) (odds : List ℚ) :
    List.Perm (sortedResiduals total odds) (residualList total odds) :=
  List.perm_insertionSort resLE _

theorem sortedResiduals_length (total : ℚ) (odds : List ℚ) :
    (sortedResiduals total odds).length = odds.length := by
  rw [(sortedResiduals_perm total odds).length_eq, residualList_eq]
  simp

theorem mem_residualList {total : ℚ} {odds : List ℚ} {p : ℕ × ℚ} :
    p ∈ residualList total odds ↔
      ∃ i, i < odds.length ∧ p = (i, residAt total odds i) := by
  rw [residualList_eq]
  simp only [List.mem_map, List.mem_range]
  constructor
  · rintro ⟨i, hi, rfl⟩; exact ⟨i, hi, rfl⟩
  · rintro ⟨i, hi, rfl⟩; exact ⟨i, hi, rfl⟩

theorem mem_sortedResiduals {total : ℚ} {odds : List ℚ} {p : ℕ × ℚ} :
    p ∈ sortedResiduals total odds ↔
      ∃ i, i < odds.length ∧ p = (i, residAt total odds i) := by
  rw [(sortedResiduals_perm total odds).mem_iff]
  exact mem_residualList

theorem targets_lt (total : ℚ) (odds : List ℚ) (hne : odds ≠ []) (c : ℕ) :
    ∀ t ∈ targetsOf (sortedResiduals total odds) c, t < odds.length := by
  intro t ht
  rcases List.mem_map.mp ht with ⟨k, _, rfl⟩
  have hlen : (sortedResiduals total odds).length = odds.length :=
    sortedResiduals_length total odds
  have hpos : 0 < (sortedResiduals total odds).length := by
    rw [hlen]
    exact List.length_pos.mpr hne
  have hmem : (sortedResiduals total odds).getD
      (k % (sortedResiduals total odds).length) (0, 0)
        ∈ sortedResiduals total odds :=
    getD_mem_of_lt _ _ _ (Nat.mod_lt _ hpos)
  rcases mem_sortedResiduals.mp hmem with ⟨i, hi, hp⟩
  rw [hp]
  exact hi

theorem targetsOf_length (order : List (ℕ × ℚ)) (c : ℕ) :
    (targetsOf order c).length = c := by
  simp [targetsOf]

theorem flooredStakes_sum_eq (total : ℚ) (odds : List ℚ) :
    (flooredStakes total odds).sum = (Mints total odds : ℚ) / 100 := by
  unfold flooredStakes Mints
  have h1 : (truncCent : ℚ → ℚ)
      = fun r : ℚ => ((truncInt (r * 100) : ℤ) : ℚ) * (1 / 100) := by
    funext r
    rw [truncCent, mul_one_div]
  rw [h1, List.sum_map_mul_right]
  have h2 : ((rawStakes total odds).map fun r => ((truncInt (r * 100) : ℤ) : ℚ))
      = (((rawStakes total odds).map fun r => truncInt (r * 100)).map
          (fun z : ℤ => (z : ℚ))) := by
    rw [List.map_map]
    rfl
  rw [h2, ← Int.cast_list_sum, mul_one_div]

theorem deficitCents_eq (k : ℤ) (odds : List ℚ) :
    deficitCents ((k : ℚ) / 100) odds = k - Mints ((k : ℚ) / 100) odds := by
  unfold deficitCents
  rw [flooredStakes_sum_eq]
  have h : ((k : ℚ) / 100 - (Mints ((k : ℚ) / 100) odds : ℚ) / 100) * 100
      = ((k - Mints ((k : ℚ) / 100) odds : ℤ) : ℚ) := by
    push_cast
    ring
  rw [h, roundHalfUpInt_intCast]

theorem truncInt_intCast (a : ℤ) : truncInt (a : ℚ) = a := by
  unfold truncInt
  split_ifs with h
  · exact Int.floor_intCast a
  · rw [show -(a : ℚ) = ((-a : ℤ) : ℚ) from (Int.cast_neg a).symm, Int.floor_intCast, neg_neg]

theorem truncCent_of_cent {x : ℚ} {a : ℤ} (h : x = (a : ℚ) / 100) :
    truncCent x = x := by
  subst h
  unfold truncCent
  rw [show (a : ℚ) / 100 * 100 = ((a : ℤ) : ℚ) by ring, truncInt_intCast]

theorem flooredSum_le_total {total : ℚ} {odds : List ℚ} (ht : 0 ≤ total)
    (hne : odds ≠ []) (h1 : ∀ o ∈ odds, 1 ≤ o) :
    (flooredStakes total odds).sum ≤ total := by
  have hinv := invSum_pos hne h1
  have hnn := rawStakes_mem_nonneg ht hinv h1
  have hle : (flooredStakes total odds).sum ≤ (rawStakes total odds).sum := by
    unfold flooredStakes
    calc ((rawStakes total odds).map truncCent).sum
        ≤ ((rawStakes total odds).map id).sum :=
          List.sum_le_sum (fun r hr => truncCent_le (hnn r hr))
      _ = (rawStakes total odds).sum := by rw [List.map_id]
  rw [rawStakes_sum hinv.ne'] at hle
  exact hle

theorem total_sub_floored_lt {total : ℚ} {odds : List ℚ} (ht : 0 ≤ total)
    (hne : odds ≠ []) (h1 : ∀ o ∈ odds, 1 ≤ o) :
    total - (flooredStakes total odds).sum < (odds.length : ℚ) * (1 / 100) := by
  have hinv := invSum_pos hne h1
  have hnn := rawStakes_mem_nonneg ht hinv h1
  have hraw_ne : rawStakes total odds ≠ [] := by
    unfold rawStakes
    simpa using hne
  have hdiff : total - (flooredStakes total odds).sum
      = ((rawStakes total odds).map (fun r => id r - truncCent r)).sum := by
    rw [sum_map_sub id truncCent, List.map_id, rawStakes_sum hinv.ne']
    rfl
  have hstrict : ((rawStakes total odds).map (fun r => id r - truncCent r)).sum
      < ((rawStakes total odds).map (fun _ : ℚ => (1 : ℚ) / 100)).sum := by
    apply List.sum_lt_sum
    · intro r hr
      have := lt_truncCent_add (hnn r hr)
      simp only [id]
      linarith
    · rcases List.exists_mem_of_ne_nil _ hraw_ne with ⟨r, hr⟩
      refine ⟨r, hr, ?_⟩
      have := lt_truncCent_add (hnn r hr)
      simp only [id]
      linarith
  have hconst : ((rawStakes total odds).map (fun _ : ℚ => (1 : ℚ) / 100)).sum
      = (odds.length : ℚ) * (1 / 100) := by
    rw [List.map_const', List.sum_replicate, nsmul_eq_mul, rawStakes_length]
  rw [hdiff]
  rw [hconst] at hstrict
  exact hstrict

theorem deficit_nonneg {k : ℤ} (hk : 0 ≤ k) (odds : List ℚ)
    (hne : odds ≠ []) (h1 : ∀ o ∈ odds, 1 ≤ o) :
    0 ≤ deficitCents ((k : ℚ) / 100) odds := by
  have ht : (0 : ℚ) ≤ (k : ℚ) / 100 := by
    have : (0 : ℚ) ≤ (k : ℚ) := by exact_mod_cast hk
    linarith
  have hle := flooredSum_le_total ht hne h1
  rw [flooredStakes_sum_eq] at hle
  have hM : Mints ((k : ℚ) / 100) odds ≤ k := by
    have : (Mints ((k : ℚ) / 100) odds : ℚ) ≤ (k : ℚ) := by linarith
    exact_mod_cast this
  rw [deficitCents_eq]
  omega

theorem deficit_lt_length {k : ℤ} (hk : 0 ≤ k) (odds : List ℚ)
    (hne : odds ≠ []) (h1 : ∀ o ∈ odds, 1 ≤ o) :
    deficitCents ((k : ℚ) / 100) odds < (odds.length : ℤ) := by
  have ht : (0 : ℚ) ≤ (k : ℚ) / 100 := by
    have : (0 : ℚ) ≤ (k : ℚ) := by exact_mod_cast hk
    linarith
  have hlt := total_sub_floored_lt ht hne h1
  rw [flooredStakes_sum_eq] at hlt
  have hq : (k : ℚ) - (Mints ((k : ℚ) / 100) odds : ℚ) < (odds.length : ℚ) := by
    linarith
  have hZ : k - Mints ((k : ℚ) / 100) odds < (odds.length : ℤ) := by
    exact_mod_cast hq
  rw [deficitCents_eq]
  exact hZ

/-! ## Claim C3: deficit bounds -/

/-- C3. For every non-empty list of decimal odds each ≥ 1 and every
nonnegative 2-decimal total stake `k/100`, the cent deficit computed in
`equal_payout_stakes` satisfies `0 ≤ deficitCents < number of entries`. -/
theorem claim3_deficit_bounds (k : ℤ) (odds : List ℚ) (hk : 0 ≤ k)
    (hne : odds ≠ []) (h1 : ∀ o ∈ odds, 1 ≤ o) :
    0 ≤ deficitCents ((k : ℚ) / 100) odds ∧
      deficitCents ((k : ℚ) / 100) odds < (odds.length : ℤ) :=
  ⟨deficit_nonneg hk odds hne h1, deficit_lt_length hk odds hne h1⟩

/-! ## Claim C1: exact conservation of the total stake -/

/-- Conservation, as a shared lemma: a successful run on a nonnegative
2-decimal total returns stakes summing exactly to the total. -/
theorem eps_conserves_helper (k : ℤ) (odds : List ℚ) (hk : 0 ≤ k)
    (hne : odds ≠ []) (h1 : ∀ o ∈ odds, 1 ≤ o) (W : ℚ) (st : List ℚ)
    (hok : equal_payout_stakes ((k : ℚ) / 100) odds = .ok (W, st)) :
    st.sum = (k : ℚ) / 100 := by
  have hinv := invSum_pos hne h1
  unfold equal_payout_stakes at hok
  rw [if_neg hinv.ne'] at hok
  simp only [Except.ok.injEq, Prod.mk.injEq] at hok
  obtain ⟨hW, hst⟩ := hok
  subst hst
  unfold distributeCents
  rw [foldlBump_sum _ _
    (fun t ht => by
      rw [flooredStakes_length]
      exact targets_lt _ odds hne _ t ht)]
  rw [targetsOf_length, flooredStakes_sum_eq]
  have hd := deficit_nonneg hk odds hne h1
  rw [deficitCents_eq] at hd
  rw [deficitCents_eq]
  have htn : (((k - Mints ((k : ℚ) / 100) odds).toNat : ℕ) : ℚ)
      = (k : ℚ) - (Mints ((k : ℚ) / 100) odds : ℚ) := by
    rw [← Int.cast_natCast (R := ℚ), Int.toNat_of_nonneg hd]
    push_cast
    ring
  rw [htn]
  ring

/-- C1. For every non-empty list of decimal odds each ≥ 1 and every
nonnegative total stake with exactly 2 decimal places (`k/100` cents), the
rounded stakes returned by `equal_payout_stakes` sum exactly to the total
stake. -/
theorem claim1_sum_conservation (k : ℤ) (odds : List ℚ) (hk : 0 ≤ k)
    (hne : odds ≠ []) (h1 : ∀ o ∈ odds, 1 ≤ o) (W : ℚ) (st : List ℚ)
    (hok : equal_payout_stakes ((k : ℚ) / 100) odds = .ok (W, st)) :
    st.sum = (k : ℚ) / 100 :=
  eps_conserves_helper k odds hk hne h1 W st hok

/-! ## Characterizing the distributed cents -/
theorem getD_eq_get {α : Type _} : ∀ (l : List α) (i : ℕ) (d : α) (h : i < l.length),
    l.getD i d = l.get ⟨i, h⟩
  | [], i, d, h => absurd h (by simp)
  | a :: t, 0, d, _ => rfl
  | a :: t, i + 1, d, h => getD_eq_get t i d (by simpa using h)

theorem sortedResiduals_fst_perm (total : ℚ) (odds : List ℚ) :
    List.Perm ((sortedResiduals total odds).map Prod.fst)
      (List.range odds.length) := by
  have h := (sortedResiduals_perm total odds).map Prod.fst
  rw [residualList_eq, List.map_map] at h
  simpa [Function.comp_def] using h

theorem sortedResiduals_fst_nodup (total : ℚ) (odds : List ℚ) :
    ((sortedResiduals total odds).map Prod.fst).Nodup :=
  (sortedResiduals_fst_perm total odds).nodup_iff.mpr (List.nodup_range _)

theorem targetsOf_eq_take (total : ℚ) (odds : List ℚ) (c : ℕ)
    (hc : c ≤ odds.length) :
    targetsOf (sortedResiduals total odds) c
      = ((sortedResiduals total odds).take c).map Prod.fst := by
  unfold targetsOf
  have hlen := sortedResiduals_length total odds
  calc (List.range c).map
        (fun k => ((sortedResiduals total odds).getD
          (k % (sortedResiduals total odds).length) (0, 0)).1)
      = (List.range c).map
          (fun k => ((sortedResiduals total odds).getD k (0, 0)).1) := by
        apply List.map_congr_left
        intro k hk
        rw [List.mem_range] at hk
        rw [hlen, Nat.mod_eq_of_lt (lt_of_lt_of_le hk hc)]
    _ = ((List.range c).map
          (fun k => (sortedResiduals total odds).getD k (0, 0))).map Prod.fst := by
        rw [List.map_map]
        rfl
    _ = ((sortedResiduals total odds).take c).map Prod.fst := by
        rw [rangeMap_getD_eq_take (0, 0) _ c (by rw [hlen]; exact hc)]

theorem take_fst_nodup (total : ℚ) (odds : List ℚ) (c : ℕ) :
    (((sortedResiduals total odds).take c).map Prod.fst).Nodup :=
  ((List.take_sublist c _).map Prod.fst).nodup (sortedResiduals_fst_nodup total odds)

theorem fst_mem_take_iff {total : ℚ} {odds : List ℚ} {c j : ℕ} :
    j ∈ (((sortedResiduals total odds).take c).map Prod.fst)
      ↔ (j, residAt total odds j) ∈ (sortedResiduals total odds).take c := by
  constructor
  · intro hmem
    rcases List.mem_map.mp hmem with ⟨p, hp, rfl⟩
    have hps : p ∈ sortedResiduals total odds := List.mem_of_mem_take hp
    rcases mem_sortedResiduals.mp hps with ⟨i, _, rfl⟩
    exact hp
  · intro hmem
    exact List.mem_map.mpr ⟨_, hmem, rfl⟩

/-- Full characterization of a successful `equal_payout_stakes` run on valid
input: `W` is the common payout and the `j`-th returned stake is the floored
stake plus one cent exactly when the pair `(j, residual j)` lies in the
cent-receiving prefix of the sorted residual list. -/
theorem stakes_char (k : ℤ) (odds : List ℚ) (hk : 0 ≤ k) (hne : odds ≠ [])
    (h1 : ∀ o ∈ odds, 1 ≤ o) (W : ℚ) (st : List ℚ)
    (hok : equal_payout_stakes ((k : ℚ) / 100) odds = .ok (W, st)) :
    W = Wpay ((k : ℚ) / 100) odds ∧ st.length = odds.length ∧
      ∀ j, j < odds.length →
        st.getD j 0 = flAt ((k : ℚ) / 100) odds j +
          (if (j, residAt ((k : ℚ) / 100) odds j)
              ∈ (sortedResiduals ((k : ℚ) / 100) odds).take
                  (deficitCents ((k : ℚ) / 100) odds).toNat
           then 1 / 100 else 0) := by
  have hinv := invSum_pos hne h1
  unfold equal_payout_stakes at hok
  rw [if_neg hinv.ne'] at hok
  simp only [Except.ok.injEq, Prod.mk.injEq] at hok
  obtain ⟨hW, hst⟩ := hok
  subst hst
  refine ⟨hW.symm, ?_, ?_⟩
  · unfold distributeCents
    rw [foldlBump_length, flooredStakes_length]
  · intro j hj
    have hc : (deficitCents ((k : ℚ) / 100) odds).toNat ≤ odds.length := by
      have := deficit_lt_length hk odds hne h1
      omega
    have hbound : ∀ t ∈ targetsOf (sortedResiduals ((k : ℚ) / 100) odds)
        (deficitCents ((k : ℚ) / 100) odds).toNat,
        t < (flooredStakes ((k : ℚ) / 100) odds).length := by
      intro t ht
      rw [flooredStakes_length]
      exact targets_lt _ odds hne _ t ht
    unfold distributeCents
    rw [foldlBump_getD _ _ j (by rw [flooredStakes_length]; exact hj)]
    rw [targetsOf_eq_take _ odds _ hc]
    by_cases hmem : (j, residAt ((k : ℚ) / 100) odds j)
        ∈ (sortedResiduals ((k : ℚ) / 100) odds).take
            (deficitCents ((k : ℚ) / 100) odds).toNat
    · rw [if_pos hmem]
      have hjmem : j ∈ (((sortedResiduals ((k : ℚ) / 100) odds).take
          (deficitCents ((k : ℚ) / 100) odds).toNat).map Prod.fst) :=
        fst_mem_take_iff.mpr hmem
      have hcount : (((sortedResiduals ((k : ℚ) / 100) odds).take
          (deficitCents ((k : ℚ) / 100) odds).toNat).map Prod.fst).count j = 1 :=
        List.count_eq_one_of_mem (take_fst_nodup _ odds _) hjmem
      rw [hcount]
      unfold flAt
      push_cast
      ring
    · rw [if_neg hmem]
      have hjmem : j ∉ (((sortedResiduals ((k : ℚ) / 100) odds).take
          (deficitCents ((k : ℚ) / 100) odds).toNat).map Prod.fst) :=
        fun hh => hmem (fst_mem_take_iff.mp hh)
      have hcount : (((sortedResiduals ((k : ℚ) / 100) odds).take
          (deficitCents ((k : ℚ) / 100) odds).toNat).map Prod.fst).count j = 0 :=
        List.count_eq_zero.mpr hjmem
      rw [hcount]
      unfold flAt
      push_cast
      ring

theorem rawAt_eq {total : ℚ} {odds : List ℚ} {j : ℕ} (hj : j < odds.length) :
    rawAt total odds j = Wpay total odds / odds.getD j 0 := by
  unfold rawAt rawStakes
  exact getD_map_any _ odds j hj 0 0

/-! ## Claim C2: one-cent deviation from the theoretical stakes -/

/-- C2. For every non-empty list of decimal odds each ≥ 1 and every
nonnegative 2-decimal total stake, each rounded stake deviates from its
theoretical raw stake `W/odds_j` by at most one cent, and
`roundedStake_j * odds_j` differs from the common payout `W` by at most
`odds_j * 0.01`. -/
theorem claim2_one_cent_deviation (k : ℤ) (odds : List ℚ) (hk : 0 ≤ k)
    (hne : odds ≠ []) (h1 : ∀ o ∈ odds, 1 ≤ o) (W : ℚ) (st : List ℚ)
    (hok : equal_payout_stakes ((k : ℚ) / 100) odds = .ok (W, st)) (j : ℕ)
    (hj : j < odds.length) :
    |st.getD j 0 - rawAt ((k : ℚ) / 100) odds j| ≤ 1 / 100 ∧
    |st.getD j 0 * odds.getD j 0 - W| ≤ odds.getD j 0 * (1 / 100) := by
  obtain ⟨hW, _, hchar⟩ := stakes_char k odds hk hne h1 W st hok
  have hinv := invSum_pos hne h1
  have ht : (0 : ℚ) ≤ (k : ℚ) / 100 := by
    have : (0 : ℚ) ≤ (k : ℚ) := by exact_mod_cast hk
    linarith
  have hres0 := residAt_nonneg ht hinv h1 hj
  have hres1 := residAt_lt ht hinv h1 hj
  have hstj := hchar j hj
  have hodds : 1 ≤ odds.getD j 0 := h1 _ (getD_mem_of_lt odds j 0 hj)
  have hopos : 0 < odds.getD j 0 := lt_of_lt_of_le one_pos hodds
  have hraw : rawAt ((k : ℚ) / 100) odds j * odds.getD j 0
      = Wpay ((k : ℚ) / 100) odds := by
    rw [rawAt_eq hj]
    exact div_mul_cancel₀ _ hopos.ne'
  have hfl : flAt ((k : ℚ) / 100) odds j
      = rawAt ((k : ℚ) / 100) odds j - residAt ((k : ℚ) / 100) odds j := by
    unfold residAt
    ring
  constructor
  · rw [hstj, hfl]
    split_ifs with hmem
    · rw [abs_le]
      constructor <;> linarith
    · rw [abs_le]
      constructor <;> linarith
  · rw [hstj, hfl, hW]
    split_ifs with hmem
    · have hkey : (rawAt ((k : ℚ) / 100) odds j - residAt ((k : ℚ) / 100) odds j
          + 1 / 100) * odds.getD j 0 - Wpay ((k : ℚ) / 100) odds
          = (1 / 100 - residAt ((k : ℚ) / 100) odds j) * odds.getD j 0 := by
        rw [← hraw]
        ring
      rw [hkey, abs_mul, abs_of_pos hopos]
      have h2 : |1 / 100 - residAt ((k : ℚ) / 100) odds j| ≤ 1 / 100 := by
        rw [abs_le]
        constructor <;> linarith
      calc |1 / 100 - residAt ((k : ℚ) / 100) odds j| * odds.getD j 0
          ≤ 1 / 100 * odds.getD j 0 := mul_le_mul_of_nonneg_right h2 hopos.le
        _ = odds.getD j 0 * (1 / 100) := by ring
    · have hkey : (rawAt ((k : ℚ) / 100) odds j - residAt ((k : ℚ) / 100) odds j
          + 0) * odds.getD j 0 - Wpay ((k : ℚ) / 100) odds
          = (0 - residAt ((k : ℚ) / 100) odds j) * odds.getD j 0 := by
        rw [← hraw]
        ring
      rw [hkey, abs_mul, abs_of_pos hopos]
      have h2 : |0 - residAt ((k : ℚ) / 100) odds j| ≤ 1 / 100 := by
        rw [abs_le]
        constructor <;> linarith
      calc |0 - residAt ((k : ℚ) / 100) odds j| * odds.getD j 0
          ≤ 1 / 100 * odds.getD j 0 := mul_le_mul_of_nonneg_right h2 hopos.le
        _ = odds.getD j 0 * (1 / 100) := by ring

/-! ## Claim C9: output order and stable tie-breaking -/

/-- C9. The rounded stakes are returned positionally: the `j`-th output
stake is the `j`-th floored stake, possibly plus one cent (the sort by
residual never reorders the output); and when two entries have equal
residuals, the extra cents are assigned preferring the earlier input index
(stable sort): if the later of two tied entries received a cent, so did the
earlier one. -/
theorem claim9_order_preserved (k : ℤ) (odds : List ℚ) (hk : 0 ≤ k)
    (hne : odds ≠ []) (h1 : ∀ o ∈ odds, 1 ≤ o) (W : ℚ) (st : List ℚ)
    (hok : equal_payout_stakes ((k : ℚ) / 100) odds = .ok (W, st)) :
    st.length = odds.length ∧
    (∀ j, j < odds.length →
      st.getD j 0 = flAt ((k : ℚ) / 100) odds j ∨
      st.getD j 0 = flAt ((k : ℚ) / 100) odds j + 1 / 100) ∧
    (∀ i j, i < j → j < odds.length →
      residAt ((k : ℚ) / 100) odds i = residAt ((k : ℚ) / 100) odds j →
      st.getD j 0 = flAt ((k : ℚ) / 100) odds j + 1 / 100 →
      st.getD i 0 = flAt ((k : ℚ) / 100) odds i + 1 / 100) := by
  obtain ⟨_, hlen, hchar⟩ := stakes_char k odds hk hne h1 W st hok
  refine ⟨hlen, ?_, ?_⟩
  · intro j hj
    have hstj := hchar j hj
    split_ifs at hstj with hmem
    · right; exact hstj
    · left; simpa using hstj
  · intro i j hij hj hres hstj
    have hi : i < odds.length := hij.trans hj
    have hchi := hchar i hi
    have hchj := hchar j hj
    by_cases hmemj : (j, residAt ((k : ℚ) / 100) odds j)
        ∈ (sortedResiduals ((k : ℚ) / 100) odds).take
            (deficitCents ((k : ℚ) / 100) odds).toNat
    · have hsorted : List.Sorted resLE (sortedResiduals ((k : ℚ) / 100) odds) :=
        List.sorted_insertionSort resLE _
      have hisorted : (i, residAt ((k : ℚ) / 100) odds i)
          ∈ sortedResiduals ((k : ℚ) / 100) odds :=
        mem_sortedResiduals.mpr ⟨i, hi, rfl⟩
      have hsplit := List.take_append_drop
        (deficitCents ((k : ℚ) / 100) odds).toNat
        (sortedResiduals ((k : ℚ) / 100) odds)
      have hmemor := List.mem_append.mp (by rw [hsplit]; exact hisorted)
      rcases hmemor with hmemi | hdropi
      · rw [if_pos hmemi] at hchi
        exact hchi
      · have hpw : List.Pairwise resLE
            (((sortedResiduals ((k : ℚ) / 100) odds).take
                (deficitCents ((k : ℚ) / 100) odds).toNat) ++
              ((sortedResiduals ((k : ℚ) / 100) odds).drop
                (deficitCents ((k : ℚ) / 100) odds).toNat)) := by
          rw [hsplit]
          exact hsorted
        have hrel := (List.pairwise_append.mp hpw).2.2 _ hmemj _ hdropi
        unfold resLE at hrel
        simp only [] at hrel
        rcases hrel with hlt | ⟨_, hle⟩
        · rw [hres] at hlt
          exact absurd hlt (lt_irrefl _)
        · omega
    · rw [if_neg hmemj, add_zero] at hchj
      rw [hchj] at hstj
      exact absurd hstj (by intro hh; linarith [hh])

/-! ## Claim C4: cyclic revisiting when the deficit exceeds the entry count -/
theorem two_le_count_map {f : ℕ → ℕ} {l : List ℕ} {j k1 k2 : ℕ}
    (h1 : k1 ∈ l) (h2 : k2 ∈ l) (hne : k1 ≠ k2)
    (hf1 : f k1 = j) (hf2 : f k2 = j) : 2 ≤ (l.map f).count j := by
  have hcount : (l.map f).count j
      = (l.filter (fun x => f x == j)).length := by
    simp only [List.count, List.countP_map]
    rw [List.countP_eq_length_filter]
    rfl
  rw [hcount]
  apply two_le_length_of_mem_ne (a := k1) (b := k2) _ _ hne
  · exact List.mem_filter.mpr ⟨h1, by simp [hf1]⟩
  · exact List.mem_filter.mpr ⟨h2, by simp [hf2]⟩

/-- C4. In the cent-distribution step, if the cent deficit exceeds the
number of entries, entries are revisited cyclically: the step is total (it
distributes every cent, so the sum grows by exactly `cents` cents rather
than the step failing), the 0-th and `n`-th cents both go to the first
sorted entry (index taken modulo the entry count), and that entry receives
at least two extra cents. -/
theorem claim4_cyclic_distribution (order : List (ℕ × ℚ)) (st : List ℚ)
    (cents : ℕ) (hb : ∀ p ∈ order, p.1 < st.length) (hne : order ≠ [])
    (hc : order.length < cents) :
    (distributeCents order st cents).sum
        = st.sum + (cents : ℚ) * (1 / 100) ∧
    (targetsOf order cents).getD 0 0 = (order.getD 0 (0, 0)).1 ∧
    (targetsOf order cents).getD order.length 0 = (order.getD 0 (0, 0)).1 ∧
    st.getD (order.getD 0 (0, 0)).1 0 + 2 * (1 / 100)
      ≤ (distributeCents order st cents).getD (order.getD 0 (0, 0)).1 0 := by
  have hlpos : 0 < order.length := List.length_pos.mpr hne
  have hcpos : 0 < cents := lt_trans hlpos hc
  have hbound : ∀ t ∈ targetsOf order cents, t < st.length := by
    intro t ht
    rcases List.mem_map.mp ht with ⟨m, _, rfl⟩
    exact hb _ (getD_mem_of_lt _ _ _ (Nat.mod_lt _ hlpos))
  have hf0 : (fun m => (order.getD (m % order.length) (0, 0)).1) 0
      = (order.getD 0 (0, 0)).1 := by
    simp [Nat.zero_mod]
  have hfn : (fun m => (order.getD (m % order.length) (0, 0)).1) order.length
      = (order.getD 0 (0, 0)).1 := by
    simp [Nat.mod_self]
  have htget : ∀ m, m < cents →
      (targetsOf order cents).getD m 0
        = (order.getD (m % order.length) (0, 0)).1 := by
    intro m hm
    unfold targetsOf
    have hmlen : m < (List.range cents).length := by simpa using hm
    have harg : (List.range cents).getD m 0 = m := by
      rw [getD_eq_get _ _ _ hmlen, List.get_eq_getElem, List.getElem_range]
    rw [getD_map_any (fun q => (order.getD (q % order.length) ((0 : ℕ), (0 : ℚ))).1)
        (List.range cents) m hmlen 0 0, harg]
  have hcount : 2 ≤ (targetsOf order cents).count (order.getD 0 (0, 0)).1 := by
    unfold targetsOf
    exact two_le_count_map (l := List.range cents)
      (List.mem_range.mpr hcpos) (List.mem_range.mpr hc)
      (Nat.ne_of_lt hlpos) hf0 hfn
  refine ⟨?_, ?_, ?_, ?_⟩
  · unfold distributeCents
    rw [foldlBump_sum _ _ hbound, targetsOf_length]
  · rw [htget 0 hcpos, Nat.zero_mod]
  · rw [htget order.length hc, Nat.mod_self]
  · unfold distributeCents
    rw [foldlBump_getD _ _ _ (hb _ (getD_mem_of_lt _ _ _ hlpos))]
    have h2 : (2 : ℚ) * (1 / 100)
        ≤ ((targetsOf order cents).count (order.getD 0 (0, 0)).1 : ℚ) * (1 / 100) := by
      apply mul_le_mul_of_nonneg_right _ (by norm_num)
      exact_mod_cast hcount
    linarith

/-! ## Claim C8: exact equal-payout identities -/

/-- C8. In exact arithmetic, the theoretical stakes computed by
`equal_payout_stakes` satisfy `rawStake_i * odds_i = W` for every entry `i`,
and the raw stakes sum to the total stake, where
`W = totalStake / Σ(1/odds_i)`. -/
theorem claim8_equal_payout_exact (total : ℚ) (odds : List ℚ)
    (hne : odds ≠ []) (h1 : ∀ o ∈ odds, 1 ≤ o) :
    (∀ i, i < odds.length →
      rawAt total odds i * odds.getD i 0 = Wpay total odds) ∧
    (rawStakes total odds).sum = total := by
  have hinv := invSum_pos hne h1
  refine ⟨?_, rawStakes_sum hinv.ne'⟩
  intro i hi
  have hodds : 1 ≤ odds.getD i 0 := h1 _ (getD_mem_of_lt odds i 0 hi)
  have hopos : 0 < odds.getD i 0 := lt_of_lt_of_le one_pos hodds
  rw [rawAt_eq hi]
  exact div_mul_cancel₀ _ hopos.ne'

/-! ## Claim C10: total-stake quantization in the allocate command -/
theorem quantHalfEven_eighth : quantHalfEvenCent (1 * (1 / 8 : ℚ)) = 12 / 100 := by
  have harg : (1 * (1 / 8 : ℚ)) * 100 = 25 / 2 := by norm_num
  have hf : ⌊(25 / 2 : ℚ)⌋ = 12 := by
    rw [Int.floor_eq_iff]
    norm_num
  unfold quantHalfEvenCent halfEvenInt
  rw [harg, hf]
  norm_num

/-- C10. The total stake handed to the allocation engine by the
`allocate` command is `units * unit_value` quantized to 2 decimal places
under round-half-even: the half-cent product `1 * 0.125` is rounded to the
even cent `0.12` (not `0.13` and not the exact product), and conservation is
relative to this rounded total: a successful allocation's stakes sum to the
quantized product, not the exact one. -/
theorem claim10_total_quantization :
    quantHalfEvenCent (1 * (1 / 8 : ℚ)) = 12 / 100 ∧
    quantHalfEvenCent (1 * (1 / 8 : ℚ)) ≠ 1 * (1 / 8 : ℚ) ∧
    (∀ (units uv : ℚ) (odds : List ℚ) (W : ℚ) (st : List ℚ),
      0 ≤ units * uv → odds ≠ [] → (∀ o ∈ odds, 1 ≤ o) →
      allocate_stakes units uv odds = .ok (W, st) →
      st.sum = quantHalfEvenCent (units * uv)) := by
  refine ⟨quantHalfEven_eighth, ?_, ?_⟩
  · rw [quantHalfEven_eighth]
    norm_num
  · intro units uv odds W st hprod hne h1 hok
    unfold allocate_stakes at hok
    have hk : 0 ≤ halfEvenInt (units * uv * 100) :=
      halfEvenInt_nonneg (mul_nonneg hprod (by norm_num))
    have hquant : quantHalfEvenCent (units * uv)
        = ((halfEvenInt (units * uv * 100) : ℤ) : ℚ) / 100 := rfl
    rw [hquant] at hok ⊢
    exact eps_conserves_helper _ odds hk hne h1 W st hok

/-! ## Concrete evaluations used by the witnesses -/
theorem distributeCents_zero (order : List (ℕ × ℚ)) (st : List ℚ) :
    distributeCents order st 0 = st := by
  simp [distributeCents, targetsOf]

theorem eps_eval_ten : equal_payout_stakes (((1000 : ℤ) : ℚ) / 100) [2, 2]
    = .ok (10, [5, 5]) := by
  have hc : (((1000 : ℤ) : ℚ) / 100) = 10 := by norm_num
  rw [hc]
  have hinv : invSum [(2 : ℚ), 2] = 1 := by
    unfold invSum
    simp only [List.map_cons, List.map_nil, List.sum_cons, List.sum_nil]
    norm_num
  have hW : Wpay 10 [(2 : ℚ), 2] = 10 := by
    unfold Wpay
    rw [hinv]
    norm_num
  have hraw : rawStakes 10 [(2 : ℚ), 2] = [5, 5] := by
    unfold rawStakes
    rw [hW]
    simp only [List.map_cons, List.map_nil, List.cons.injEq, and_true]
    norm_num
  have h5 : truncCent (5 : ℚ) = 5 := truncCent_of_cent (a := 500) (by norm_num)
  have hfl : flooredStakes 10 [(2 : ℚ), 2] = [5, 5] := by
    unfold flooredStakes
    rw [hraw]
    simp [h5]
  have hdef : deficitCents 10 [(2 : ℚ), 2] = 0 := by
    unfold deficitCents
    rw [hfl]
    have hsum : ((10 : ℚ) - ([5, 5] : List ℚ).sum) * 100 = ((0 : ℤ) : ℚ) := by
      simp only [List.sum_cons, List.sum_nil]
      norm_num
    rw [hsum, roundHalfUpInt_intCast]
  unfold equal_payout_stakes
  rw [if_neg (by rw [hinv]; norm_num), hfl, hdef, hW]
  rw [show ((0 : ℤ).toNat) = 0 from rfl, distributeCents_zero]

theorem allocate_eval_eighth : allocate_stakes 1 (1 / 8 : ℚ) [2, 2]
    = .ok (12 / 100, [6 / 100, 6 / 100]) := by
  unfold allocate_stakes
  rw [quantHalfEven_eighth]
  have hinv : invSum [(2 : ℚ), 2] = 1 := by
    unfold invSum
    simp only [List.map_cons, List.map_nil, List.sum_cons, List.sum_nil]
    norm_num
  have hW : Wpay (12 / 100) [(2 : ℚ), 2] = 12 / 100 := by
    unfold Wpay
    rw [hinv]
    norm_num
  have hraw : rawStakes (12 / 100) [(2 : ℚ), 2] = [6 / 100, 6 / 100] := by
    unfold rawStakes
    rw [hW]
    simp only [List.map_cons, List.map_nil, List.cons.injEq, and_true]
    norm_num
  have h6 : truncCent (6 / 100 : ℚ) = 6 / 100 := truncCent_of_cent (a := 6) (by norm_num)
  have hfl : flooredStakes (12 / 100) [(2 : ℚ), 2] = [6 / 100, 6 / 100] := by
    unfold flooredStakes
    rw [hraw]
    simp [h6]
  have hdef : deficitCents (12 / 100) [(2 : ℚ), 2] = 0 := by
    unfold deficitCents
    rw [hfl]
    have hsum : ((12 / 100 : ℚ) - ([6 / 100, 6 / 100] : List ℚ).sum) * 100
        = ((0 : ℤ) : ℚ) := by
      simp only [List.sum_cons, List.sum_nil]
      norm_num
    rw [hsum, roundHalfUpInt_intCast]
  unfold equal_payout_stakes
  rw [if_neg (by rw [hinv]; norm_num), hfl, hdef, hW]
  rw [show ((0 : ℤ).toNat) = 0 from rfl, distributeCents_zero]

/-! ## Witnesses for the engine claims -/
theorem claim1_witness : ([5, 5] : List ℚ).sum = ((1000 : ℤ) : ℚ) / 100 :=
  claim1_sum_conservation 1000 [2, 2] (by norm_num) (by simp)
    (fun o ho => by fin_cases ho <;> norm_num) 10 [5, 5] eps_eval_ten

theorem claim2_witness :
    |([5, 5] : List ℚ).getD 0 0 - rawAt (((1000 : ℤ) : ℚ) / 100) [2, 2] 0| ≤ 1 / 100 ∧
    |([5, 5] : List ℚ).getD 0 0 * ([2, 2] : List ℚ).getD 0 0 - 10|
      ≤ ([2, 2] : List ℚ).getD 0 0 * (1 / 100) :=
  claim2_one_cent_deviation 1000 [2, 2] (by norm_num) (by simp)
    (fun o ho => by fin_cases ho <;> norm_num) 10 [5, 5] eps_eval_ten 0 (by simp)

theorem claim3_witness :
    0 ≤ deficitCents (((1000 : ℤ) : ℚ) / 100) [2, 2] ∧
    deficitCents (((1000 : ℤ) : ℚ) / 100) [2, 2] < (([2, 2] : List ℚ).length : ℤ) :=
  claim3_deficit_bounds 1000 [2, 2] (by norm_num) (by simp)
    (fun o ho => by fin_cases ho <;> norm_num)

theorem claim4_witness :
    (distributeCents [((0 : ℕ), (0 : ℚ))] [(0 : ℚ)] 2).sum
        = ([(0 : ℚ)] : List ℚ).sum + ((2 : ℕ) : ℚ) * (1 / 100) ∧
    (targetsOf [((0 : ℕ), (0 : ℚ))] 2).getD 0 0
        = (([((0 : ℕ), (0 : ℚ))] : List (ℕ × ℚ)).getD 0 (0, 0)).1 ∧
    (targetsOf [((0 : ℕ), (0 : ℚ))] 2).getD
        ([((0 : ℕ), (0 : ℚ))] : List (ℕ × ℚ)).length 0
        = (([((0 : ℕ), (0 : ℚ))] : List (ℕ × ℚ)).getD 0 (0, 0)).1 ∧
    ([(0 : ℚ)] : List ℚ).getD
        (([((0 : ℕ), (0 : ℚ))] : List (ℕ × ℚ)).getD 0 (0, 0)).1 0 + 2 * (1 / 100)
      ≤ (distributeCents [((0 : ℕ), (0 : ℚ))] [(0 : ℚ)] 2).getD
          (([((0 : ℕ), (0 : ℚ))] : List (ℕ × ℚ)).getD 0 (0, 0)).1 0 :=
  claim4_cyclic_distribution [((0 : ℕ), (0 : ℚ))] [(0 : ℚ)] 2
    (by intro p hp; fin_cases hp; simp) (by simp) (by simp)

theorem claim8_witness :
    (rawAt 10 [2, 2] 0 * ([2, 2] : List ℚ).getD 0 0 = Wpay 10 [2, 2]) ∧
    (rawStakes 10 [2, 2]).sum = 10 :=
  ⟨(claim8_equal_payout_exact 10 [2, 2] (by simp)
      (fun o ho => by fin_cases ho <;> norm_num)).1 0 (by simp),
   (claim8_equal_payout_exact 10 [2, 2] (by simp)
      (fun o ho => by fin_cases ho <;> norm_num)).2⟩

theorem claim9_witness :
    ([5, 5] : List ℚ).length = ([2, 2] : List ℚ).length ∧
    (([5, 5] : List ℚ).getD 0 0 = flAt (((1000 : ℤ) : ℚ) / 100) [2, 2] 0 ∨
     ([5, 5] : List ℚ).getD 0 0 = flAt (((1000 : ℤ) : ℚ) / 100) [2, 2] 0 + 1 / 100) :=
  ⟨(claim9_order_preserved 1000 [2, 2] (by norm_num) (by simp)
      (fun o ho => by fin_cases ho <;> norm_num) 10 [5, 5] eps_eval_ten).1,
   (claim9_order_preserved 1000 [2, 2] (by norm_num) (by simp)
      (fun o ho => by fin_cases ho <;> norm_num) 10 [5, 5] eps_eval_ten).2.1 0 (by simp)⟩

theorem claim10_witness :
    ([6 / 100, 6 / 100] : List ℚ).sum = quantHalfEvenCent (1 * (1 / 8 : ℚ)) :=
  claim10_total_quantization.2.2 1 (1 / 8) [2, 2] (12 / 100) [6 / 100, 6 / 100]
    (by norm_num) (by simp) (fun o ho => by fin_cases ho <;> norm_num)
    allocate_eval_eighth

/-! ## Character-class and scanning lemmas -/
theorem space_cases {c : Char} (h : isSpaceC c = true) :
    c = ' ' ∨ c = '\t' ∨ c = '\n' ∨ c = '\r' ∨ c = '\x0b' ∨ c = '\x0c' := by
  unfold isSpaceC at h
  simp only [Bool.or_eq_true, beq_iff_eq] at h
  tauto

theorem space_not_digit {c : Char} (h : isSpaceC c = true) : isDigitC c = false := by
  rcases space_cases h with rfl | rfl | rfl | rfl | rfl | rfl <;> decide

theorem digit_not_space {c : Char} (h : isDigitC c = true) : isSpaceC c = false := by
  by_contra hs
  rw [Bool.not_eq_false] at hs
  rw [space_not_digit hs] at h
  cases h

theorem digit_ne_of {c c2 : Char} (h : isDigitC c = true)
    (h2 : isDigitC c2 = false) : c ≠ c2 := by
  rintro rfl
  rw [h] at h2
  cases h2

theorem space_ne_of {c c2 : Char} (h : isSpaceC c = true)
    (h2 : isSpaceC c2 = false) : c ≠ c2 := by
  rintro rfl
  rw [h] at h2
  cases h2

theorem takeWhile_all_append {p : Char → Bool} :
    ∀ (l r : List Char), (∀ c ∈ l, p c = true) →
      (∀ c, r.head? = some c → p c = false) →
      (l ++ r).takeWhile p = l ∧ (l ++ r).dropWhile p = r
  | [], r, _, hr => by
      cases r with
      | nil => exact ⟨rfl, rfl⟩
      | cons c r2 =>
          have hc := hr c rfl
          simp [List.takeWhile_cons, List.dropWhile_cons, hc]
  | a :: l, r, hl, hr => by
      have ha := hl a (List.mem_cons_self _ _)
      have ih := takeWhile_all_append l r (fun c hc => hl c (List.mem_cons_of_mem _ hc)) hr
      simp only [List.cons_append, List.takeWhile_cons, List.dropWhile_cons, ha]
      simp [ih.1, ih.2]

theorem mem_takeWhile_p {p : Char → Bool} :
    ∀ {l : List Char} {c : Char}, c ∈ l.takeWhile p → p c = true := by
  intro l
  induction l with
  | nil => intro c hc; simp [List.takeWhile] at hc
  | cons a t ih =>
      intro c hc
      rw [List.takeWhile_cons] at hc
      by_cases ha : p a = true
      · rw [if_pos ha] at hc
        rcases List.mem_cons.mp hc with rfl | hc2
        · exact ha
        · exact ih hc2
      · rw [if_neg ha] at hc
        simp at hc

/-! ## parseNum lemmas -/
theorem parseNum_complete (n : Numeral) (rest : List Char) (hwf : n.WF)
    (hrest : ∀ c, rest.head? = some c → isDigitC c = false ∧ c ≠ '.') :
    parseNum (n.render ++ rest) = some (n, rest) := by
  obtain ⟨ip, fp⟩ := n
  obtain ⟨hne, hdig, hfrac⟩ := hwf
  have hipE : ip.isEmpty = false := by
    cases ip
    · exact absurd rfl hne
    · rfl
  cases fp with
  | none =>
      have hsplit := takeWhile_all_append ip rest hdig (fun c hc => (hrest c hc).1)
      have hcs : Numeral.render ⟨ip, none⟩ ++ rest = ip ++ rest := by
        simp [Numeral.render]
      rw [hcs]
      cases rest with
      | nil =>
          simp only [parseNum, hsplit.1, hsplit.2]
          rw [if_neg (by simp [hipE])]
      | cons c r2 =>
          have hcdot : ¬ (c = '.') := (hrest c rfl).2
          simp only [parseNum, hsplit.1, hsplit.2]
          rw [if_neg (by simp [hipE]), if_neg hcdot]
  | some f =>
      obtain ⟨hfne, hfdig⟩ := hfrac f rfl
      have hfE : f.isEmpty = false := by
        cases f
        · exact absurd rfl hfne
        · rfl
      have hsplitf := takeWhile_all_append f rest hfdig (fun c hc => (hrest c hc).1)
      have hsplit := takeWhile_all_append ip ('.' :: (f ++ rest)) hdig
        (fun c hc => by
          have hcc : '.' = c := Option.some.inj hc
          subst hcc
          decide)
      have hcs : Numeral.render ⟨ip, some f⟩ ++ rest = ip ++ ('.' :: (f ++ rest)) := by
        simp [Numeral.render]
      rw [hcs]
      simp only [parseNum, hsplit.1, hsplit.2, hsplitf.1, hsplitf.2]
      rw [if_neg (by simp [hipE]), if_pos trivial, if_neg (by simp [hfE])]

theorem parseNum_sound {cs : List Char} {n : Numeral} {rest : List Char}
    (h : parseNum cs = some (n, rest)) :
    Numeral.WF n ∧ cs = n.render ++ rest := by
  have hsplit := List.takeWhile_append_dropWhile (p := isDigitC) (l := cs)
  simp only [parseNum] at h
  by_cases hds : (cs.takeWhile isDigitC).isEmpty = true
  · rw [if_pos hds] at h
    simp at h
  · rw [if_neg hds] at h
    have hdig : ∀ c ∈ cs.takeWhile isDigitC, isDigitC c = true :=
      fun c hc => mem_takeWhile_p hc
    have hne : cs.takeWhile isDigitC ≠ [] := by
      intro hnil
      rw [hnil] at hds
      exact hds rfl
    cases hr : cs.dropWhile isDigitC with
    | nil =>
        simp only [hr, Option.some.injEq, Prod.mk.injEq] at h
        obtain ⟨hn, hrest⟩ := h
        subst hn
        subst hrest
        refine ⟨⟨hne, hdig, by simp⟩, ?_⟩
        conv_lhs => rw [← hsplit, hr]
        simp [Numeral.render]
    | cons c r2 =>
        simp only [hr] at h
        by_cases hc : c = '.'
        · subst hc
          rw [if_pos rfl] at h
          by_cases hfs : (r2.takeWhile isDigitC).isEmpty = true
          · rw [if_pos hfs] at h
            simp only [Option.some.injEq, Prod.mk.injEq] at h
            obtain ⟨hn, hrest⟩ := h
            subst hn
            subst hrest
            refine ⟨⟨hne, hdig, by simp⟩, ?_⟩
            conv_lhs => rw [← hsplit, hr]
            simp [Numeral.render]
          · rw [if_neg hfs] at h
            simp only [Option.some.injEq, Prod.mk.injEq] at h
            obtain ⟨hn, hrest⟩ := h
            subst hn
            subst hrest
            have hfd : ∀ x ∈ r2.takeWhile isDigitC, isDigitC x = true :=
              fun x hx => mem_takeWhile_p hx
            have hfne : r2.takeWhile isDigitC ≠ [] := by
              intro hnil
              rw [hnil] at hfs
              exact hfs rfl
            refine ⟨⟨hne, hdig, ?_⟩, ?_⟩
            · intro f hf
              simp only [Option.some.injEq] at hf
              subst hf
              exact ⟨hfne, hfd⟩
            · conv_lhs => rw [← hsplit, hr]
              have hr2 := List.takeWhile_append_dropWhile (p := isDigitC) (l := r2)
              conv_lhs => rw [← hr2]
              simp [Numeral.render]
        · rw [if_neg hc] at h
          simp only [Option.some.injEq, Prod.mk.injEq] at h
          obtain ⟨hn, hrest⟩ := h
          subst hn
          subst hrest
          refine ⟨⟨hne, hdig, by simp⟩, ?_⟩
          conv_lhs => rw [← hsplit, hr]
          simp [Numeral.render]

theorem parseNum_isSome_of_digit {c : Char} {cs : List Char}
    (h : isDigitC c = true) : (parseNum (c :: cs)).isSome = true := by
  simp only [parseNum, List.takeWhile_cons, h, if_true]
  rw [if_neg (by simp)]
  repeat' split
  all_goals rfl

/-! ## fracMatch lemmas -/
theorem render_head_digit {n : Numeral} (hwf : n.WF) :
    ∃ c t, n.render = c :: t ∧ isDigitC c = true := by
  obtain ⟨hne, hdig, _⟩ := hwf
  obtain ⟨c, ip2, hip⟩ := List.exists_cons_of_ne_nil hne
  refine ⟨c, ip2 ++ (match n.fracPart with | none => [] | some f => '.' :: f), ?_, ?_⟩
  · unfold Numeral.render
    rw [hip]
    rfl
  · exact hdig c (by rw [hip]; exact List.mem_cons_self _ _)

theorem fracMatch_complete {cs : List Char} {n d : Numeral}
    (hg : FracGrammar cs n d) : fracMatch cs = some (n, d) := by
  obtain ⟨hwn, hwd, s1, s2, s3, s4, hs1, hs2, hs3, hs4, rfl⟩ := hg
  obtain ⟨cn, tn, hrn, hcn⟩ := render_head_digit hwn
  obtain ⟨cd, td, hrd, hcd⟩ := render_head_digit hwd
  rw [show s1 ++ n.render ++ s2 ++ '/' :: (s3 ++ d.render ++ s4)
      = s1 ++ (n.render ++ (s2 ++ ('/' :: (s3 ++ (d.render ++ s4)))))
    by simp [List.append_assoc]]
  have hdrop1 : (s1 ++ (n.render ++ (s2 ++ ('/' :: (s3 ++ (d.render ++ s4)))))).dropWhile
      isSpaceC = n.render ++ (s2 ++ ('/' :: (s3 ++ (d.render ++ s4)))) := by
    refine (takeWhile_all_append s1 _ hs1 ?_).2
    intro c hc
    rw [hrn, List.cons_append] at hc
    have hcc : cn = c := Option.some.inj hc
    subst hcc
    exact digit_not_space hcn
  have hpn1 : parseNum (n.render ++ (s2 ++ ('/' :: (s3 ++ (d.render ++ s4)))))
      = some (n, s2 ++ ('/' :: (s3 ++ (d.render ++ s4)))) := by
    apply parseNum_complete _ _ hwn
    intro c hc
    cases s2 with
    | nil =>
        have hcc : '/' = c := Option.some.inj hc
        subst hcc
        exact ⟨by decide, by decide⟩
    | cons a s2t =>
        rw [List.cons_append] at hc
        have hcc : a = c := Option.some.inj hc
        subst hcc
        have ha := hs2 a (List.mem_cons_self _ _)
        exact ⟨space_not_digit ha, space_ne_of ha (by decide)⟩
  have hdrop2 : (s2 ++ ('/' :: (s3 ++ (d.render ++ s4)))).dropWhile isSpaceC
      = '/' :: (s3 ++ (d.render ++ s4)) := by
    refine (takeWhile_all_append s2 _ hs2 ?_).2
    intro c hc
    have hcc : '/' = c := Option.some.inj hc
    subst hcc
    decide
  have hdrop3 : (s3 ++ (d.render ++ s4)).dropWhile isSpaceC = d.render ++ s4 := by
    refine (takeWhile_all_append s3 _ hs3 ?_).2
    intro c hc
    rw [hrd, List.cons_append] at hc
    have hcc : cd = c := Option.some.inj hc
    subst hcc
    exact digit_not_space hcd
  have hpn2 : parseNum (d.render ++ s4) = some (d, s4) := by
    apply parseNum_complete _ _ hwd
    intro c hc
    have hc2 := hs4 c (by
      cases s4 with
      | nil => simp at hc
      | cons a s4t =>
          have hcc : a = c := Option.some.inj hc
          subst hcc
          exact List.mem_cons_self _ _)
    exact ⟨space_not_digit hc2, space_ne_of hc2 (by decide)⟩
  have hall : s4.all isSpaceC = true := List.all_eq_true.mpr (fun c hc => hs4 c hc)
  simp only [fracMatch, hdrop1, hpn1, hdrop2, hdrop3, hpn2]
  rw [if_pos trivial, if_pos hall]

theorem fracMatch_sound {cs : List Char} {n d : Numeral}
    (h : fracMatch cs = some (n, d)) : FracGrammar cs n d := by
  unfold fracMatch at h
  cases hp1 : parseNum (cs.dropWhile isSpaceC) with
  | none =>
      simp only [hp1] at h
      exact Option.noConfusion h
  | some p =>
      obtain ⟨n1, r1⟩ := p
      simp only [hp1] at h
      cases hr2 : r1.dropWhile isSpaceC with
      | nil =>
          simp only [hr2] at h
          exact Option.noConfusion h
      | cons c r3 =>
          simp only [hr2] at h
          by_cases hc : c = '/'
          · subst hc
            rw [if_pos rfl] at h
            cases hp2 : parseNum (r3.dropWhile isSpaceC) with
            | none =>
                simp only [hp2] at h
                exact Option.noConfusion h
            | some q =>
                obtain ⟨d1, r5⟩ := q
                simp only [hp2] at h
                by_cases hall : r5.all isSpaceC = true
                · rw [if_pos hall] at h
                  simp only [Option.some.injEq, Prod.mk.injEq] at h
                  obtain ⟨hn1, hd1⟩ := h
                  subst hn1
                  subst hd1
                  obtain ⟨hwfn, hcs1⟩ := parseNum_sound hp1
                  obtain ⟨hwfd, hcs2⟩ := parseNum_sound hp2
                  refine ⟨hwfn, hwfd, cs.takeWhile isSpaceC, r1.takeWhile isSpaceC,
                    r3.takeWhile isSpaceC, r5,
                    (fun x hx => mem_takeWhile_p hx), (fun x hx => mem_takeWhile_p hx),
                    (fun x hx => mem_takeWhile_p hx),
                    (fun x hx => List.all_eq_true.mp hall x hx), ?_⟩
                  conv_lhs => rw [← List.takeWhile_append_dropWhile
                    (p := isSpaceC) (l := cs), hcs1]
                  conv_lhs => rw [show r1 = r1.takeWhile isSpaceC ++ r1.dropWhile isSpaceC
                    from (List.takeWhile_append_dropWhile (p := isSpaceC) (l := r1)).symm]
                  conv_lhs => rw [hr2]
                  conv_lhs => rw [show r3 = r3.takeWhile isSpaceC ++ r3.dropWhile isSpaceC
                    from (List.takeWhile_append_dropWhile (p := isSpaceC) (l := r3)).symm]
                  conv_lhs => rw [hcs2]
                  simp [List.append_assoc]
                · rw [if_neg hall] at h
                  cases h
          · rw [if_neg hc] at h
            cases h

/-! ## Claim C5: fraction parsing -/

/-- C5. `frac_to_decimal` returns `1 + numerator/denominator` on every
input matching the grammar `<number> "/" <number>` with optional surrounding
whitespace and a nonzero denominator, and returns an error exactly when the
grammar does not match or the denominator is zero; in particular `5/2`
yields 3.5, `0/5` yields 1.0, and `5/0` fails with the zero-denominator
error. -/
theorem claim5_frac_parsing (s : String) :
    (∀ n d : Numeral, FracGrammar s.data n d → Numeral.val d ≠ 0 →
        frac_to_decimal s = .ok (Numeral.val n / Numeral.val d + 1)) ∧
    ((∃ e, frac_to_decimal s = .error e) ↔
        ¬ ∃ n d : Numeral, FracGrammar s.data n d ∧ Numeral.val d ≠ 0) ∧
    frac_to_decimal (String.mk ['5', '/', '2']) = .ok (7 / 2) ∧
    frac_to_decimal (String.mk ['0', '/', '5']) = .ok 1 ∧
    frac_to_decimal (String.mk ['5', '/', '0']) = .error zeroDenMsg := by
  have hcomplete : ∀ n d : Numeral, FracGrammar s.data n d → Numeral.val d ≠ 0 →
      frac_to_decimal s = .ok (Numeral.val n / Numeral.val d + 1) := by
    intro n d hg hd
    unfold frac_to_decimal
    simp only [fracMatch_complete hg]
    rw [if_neg hd]
  refine ⟨hcomplete, ?_, ?_, ?_, ?_⟩
  · constructor
    · rintro ⟨e, he⟩ ⟨n, d, hg, hd⟩
      rw [hcomplete n d hg hd] at he
      exact Except.noConfusion he
    · intro hno
      cases hm : fracMatch s.data with
      | none =>
          refine ⟨badFracMsg, ?_⟩
          unfold frac_to_decimal
          simp only [hm]
      | some p =>
          obtain ⟨n, d⟩ := p
          have hg := fracMatch_sound hm
          by_cases hd : Numeral.val d = 0
          · refine ⟨zeroDenMsg, ?_⟩
            unfold frac_to_decimal
            simp only [hm]
            rw [if_pos hd]
          · exact absurd ⟨n, d, hg, hd⟩ hno
  · have hm : fracMatch (String.mk ['5', '/', '2']).data
        = some (⟨['5'], none⟩, ⟨['2'], none⟩) := rfl
    have hv2 : Numeral.val ⟨['2'], none⟩ = 2 := by
      norm_num [Numeral.val, show digitsVal ['2'] = 2 from rfl]
    have hv5 : Numeral.val ⟨['5'], none⟩ = 5 := by
      norm_num [Numeral.val, show digitsVal ['5'] = 5 from rfl]
    unfold frac_to_decimal
    simp only [hm]
    rw [if_neg (by rw [hv2]; norm_num), hv2, hv5]
    norm_num
  · have hm : fracMatch (String.mk ['0', '/', '5']).data
        = some (⟨['0'], none⟩, ⟨['5'], none⟩) := rfl
    have hv0 : Numeral.val ⟨['0'], none⟩ = 0 := by
      norm_num [Numeral.val, show digitsVal ['0'] = 0 from rfl]
    have hv5 : Numeral.val ⟨['5'], none⟩ = 5 := by
      norm_num [Numeral.val, show digitsVal ['5'] = 5 from rfl]
    unfold frac_to_decimal
    simp only [hm]
    rw [if_neg (by rw [hv5]; norm_num), hv0, hv5]
    norm_num
  · have hm : fracMatch (String.mk ['5', '/', '0']).data
        = some (⟨['5'], none⟩, ⟨['0'], none⟩) := rfl
    have hv0 : Numeral.val ⟨['0'], none⟩ = 0 := by
      norm_num [Numeral.val, show digitsVal ['0'] = 0 from rfl]
    unfold frac_to_decimal
    simp only [hm]
    rw [if_pos hv0]

theorem claim5_witness :
    frac_to_decimal (String.mk ['5', '/', '2'])
      = .ok (Numeral.val ⟨['5'], none⟩ / Numeral.val ⟨['2'], none⟩ + 1) :=
  (claim5_frac_parsing (String.mk ['5', '/', '2'])).1 ⟨['5'], none⟩ ⟨['2'], none⟩
    ⟨⟨by simp, by decide, by simp⟩, ⟨by simp, by decide, by simp⟩,
      [], [], [], [], by simp [AllSpaces], by simp [AllSpaces], by simp [AllSpaces],
      by simp [AllSpaces], by decide⟩
    (by norm_num [Numeral.val, show digitsVal ['2'] = 2 from rfl])

/-! ## Header matching lemmas -/
theorem ciChar_u_cases {c : Char} (h : ciChar c 'u' = true) : c = 'u' ∨ c = 'U' := by
  unfold ciChar at h
  simp only [Bool.or_eq_true, Bool.and_eq_true, beq_iff_eq, decide_eq_true_eq] at h
  rcases h with h | ⟨_, h⟩
  · exact Or.inl h
  · right
    rw [h]
    decide

theorem ciu_not_digit {c : Char} (h : ciChar c 'u' = true) : isDigitC c = false := by
  rcases ciChar_u_cases h with rfl | rfl <;> decide

theorem ciu_not_space {c : Char} (h : ciChar c 'u' = true) : isSpaceC c = false := by
  rcases ciChar_u_cases h with rfl | rfl <;> decide

theorem ciu_ne_dot {c : Char} (h : ciChar c 'u' = true) : c ≠ '.' := by
  rcases ciChar_u_cases h with rfl | rfl <;> decide

theorem matchLit_complete {lit pat : List Char} (rest : List Char)
    (h : List.Forall₂ (fun x y => ciChar x y = true) lit pat) :
    matchLit pat (lit ++ rest) = some rest := by
  induction h with
  | nil => rfl
  | cons hxy hf ih =>
      rw [List.cons_append]
      simp only [matchLit]
      rw [if_pos hxy]
      exact ih

theorem matchLit_sound : ∀ {pat cs rest : List Char},
    matchLit pat cs = some rest →
    ∃ lit, List.Forall₂ (fun x y => ciChar x y = true) lit pat ∧ cs = lit ++ rest
  | [], cs, rest, h => by
      simp only [matchLit, Option.some.injEq] at h
      exact ⟨[], List.Forall₂.nil, by rw [h]; rfl⟩
  | l :: ls, [], rest, h => by
      simp only [matchLit] at h
      exact Option.noConfusion h
  | l :: ls, c :: cs, rest, h => by
      simp only [matchLit] at h
      by_cases hc : ciChar c l = true
      · rw [if_pos hc] at h
        obtain ⟨lit, hf, hcs⟩ := matchLit_sound h
        exact ⟨c :: lit, List.Forall₂.cons hc hf, by rw [List.cons_append, hcs]⟩
      · rw [if_neg hc] at h
        exact Option.noConfusion h

theorem isEmpty_false_of_ne_nil {l : List Char} (h : l ≠ []) : l.isEmpty = false := by
  cases l
  · exact absurd rfl h
  · rfl

theorem headerMatchAt_isSome {cs : List Char} {u a : ℚ}
    (hg : HeaderAtVal cs u a) : (headerMatchAt cs).isSome = true := by
  obtain ⟨lit, s1, n, s2, uc, s3, dol, s4, d, rest, hflit, hs1, hs1ne, hwn, hs2,
    hciu, hs3, hs3ne, hdol, hs4, hwd, hvn, hvd, rfl⟩ := hg
  obtain ⟨cn, tn, hrn, hcn⟩ := render_head_digit hwn
  obtain ⟨cd, td, hrd, hcd⟩ := render_head_digit hwd
  have hlit := matchLit_complete (s1 ++ (n.render ++ (s2 ++ (uc ::
      (s3 ++ (dol ++ (s4 ++ (d.render ++ rest)))))))) hflit
  have hsp1 := takeWhile_all_append s1
      (n.render ++ (s2 ++ (uc :: (s3 ++ (dol ++ (s4 ++ (d.render ++ rest))))))) hs1
      (by
        intro c hc
        rw [hrn, List.cons_append] at hc
        have hcc : cn = c := Option.some.inj hc
        subst hcc
        exact digit_not_space hcn)
  have hpn1 : parseNum (n.render ++ (s2 ++ (uc ::
      (s3 ++ (dol ++ (s4 ++ (d.render ++ rest)))))))
      = some (n, s2 ++ (uc :: (s3 ++ (dol ++ (s4 ++ (d.render ++ rest)))))) := by
    apply parseNum_complete _ _ hwn
    intro c hc
    cases s2 with
    | nil =>
        rw [List.nil_append] at hc
        have hcc : uc = c := Option.some.inj hc
        subst hcc
        exact ⟨ciu_not_digit hciu, ciu_ne_dot hciu⟩
    | cons b s2t =>
        rw [List.cons_append] at hc
        have hcc : b = c := Option.some.inj hc
        have hb := hs2 b (List.mem_cons_self _ _)
        rw [hcc] at hb
        exact ⟨space_not_digit hb, space_ne_of hb (by decide)⟩
  have hsp2 := takeWhile_all_append s2
      (uc :: (s3 ++ (dol ++ (s4 ++ (d.render ++ rest))))) hs2
      (by
        intro c hc
        have hcc : uc = c := Option.some.inj hc
        subst hcc
        exact ciu_not_space hciu)
  rcases hdol with rfl | rfl
  · have hsp34 := takeWhile_all_append (s3 ++ s4) (d.render ++ rest)
        (fun c hc => by
          rcases List.mem_append.mp hc with h3 | h4
          · exact hs3 c h3
          · exact hs4 c h4)
        (by
          intro c hc
          rw [hrd, List.cons_append] at hc
          have hcc : cd = c := Option.some.inj hc
          subst hcc
          exact digit_not_space hcd)
    have hs34ne : s3 ++ s4 ≠ [] := by
      intro hh
      exact hs3ne (List.append_eq_nil.mp hh).1
    obtain ⟨q, hq⟩ : ∃ q, parseNum (d.render ++ rest) = some q := by
      rw [hrd, List.cons_append]
      exact Option.isSome_iff_exists.mp (parseNum_isSome_of_digit hcd)
    obtain ⟨d2, r7⟩ := q
    have hcdne : ¬ (cd = '$') := digit_ne_of hcd (by decide)
    simp only [List.nil_append] at hlit hsp1 hpn1 hsp2 ⊢
    simp only [headerMatchAt, hlit, hsp1.1, hsp1.2, isEmpty_false_of_ne_nil hs1ne,
      Bool.false_eq_true, if_false, hpn1, hsp2.2, hciu, if_true]
    rw [show s3 ++ (s4 ++ (d.render ++ rest)) = (s3 ++ s4) ++ (d.render ++ rest)
      from (List.append_assoc _ _ _).symm]
    simp only [hsp34.1, hsp34.2, isEmpty_false_of_ne_nil hs34ne,
      Bool.false_eq_true, if_false]
    rw [hrd, List.cons_append] at hq ⊢
    simp only [if_neg hcdne, hq]
    rfl
  · have hsp3 := takeWhile_all_append s3 ('$' :: (s4 ++ (d.render ++ rest))) hs3
        (by
          intro c hc
          have hcc : '$' = c := Option.some.inj hc
          subst hcc
          decide)
    have hsp4 := takeWhile_all_append s4 (d.render ++ rest) hs4
        (by
          intro c hc
          rw [hrd, List.cons_append] at hc
          have hcc : cd = c := Option.some.inj hc
          subst hcc
          exact digit_not_space hcd)
    obtain ⟨q, hq⟩ : ∃ q, parseNum (d.render ++ rest) = some q := by
      rw [hrd, List.cons_append]
      exact Option.isSome_iff_exists.mp (parseNum_isSome_of_digit hcd)
    obtain ⟨d2, r7⟩ := q
    simp only [List.singleton_append] at hlit hsp1 hpn1 hsp2 ⊢
    simp only [headerMatchAt, hlit, hsp1.1, hsp1.2, isEmpty_false_of_ne_nil hs1ne,
      Bool.false_eq_true, if_false, hpn1, hsp2.2, hciu, if_true]
    simp only [hsp3.1, hsp3.2, isEmpty_false_of_ne_nil hs3ne,
      Bool.false_eq_true, if_false, eq_self_iff_true, if_true, hsp4.2, hq]
    rfl

theorem ne_nil_of_not_isEmpty {l : List Char} (h : ¬ (l.isEmpty = true)) : l ≠ [] := by
  intro hh
  rw [hh] at h
  exact h rfl

theorem headerMatchAt_sound {cs : List Char} {n d : Numeral}
    (h : headerMatchAt cs = some (n, d)) : HeaderAtVal cs n.val d.val := by
  unfold headerMatchAt at h
  cases hlit : matchLit headerLit cs with
  | none =>
      simp only [hlit] at h
      exact Option.noConfusion h
  | some r0 =>
      simp only [hlit] at h
      by_cases hE1 : (r0.takeWhile isSpaceC).isEmpty = true
      · rw [if_pos hE1] at h
        exact Option.noConfusion h
      · rw [if_neg hE1] at h
        cases hp1 : parseNum (r0.dropWhile isSpaceC) with
        | none =>
            simp only [hp1] at h
            exact Option.noConfusion h
        | some p =>
            obtain ⟨n1, r2⟩ := p
            simp only [hp1] at h
            cases hd2 : r2.dropWhile isSpaceC with
            | nil =>
                simp only [hd2] at h
                exact Option.noConfusion h
            | cons c r4 =>
                simp only [hd2] at h
                by_cases hcu : ciChar c 'u' = true
                · rw [if_pos hcu] at h
                  by_cases hE2 : (r4.takeWhile isSpaceC).isEmpty = true
                  · rw [if_pos hE2] at h
                    exact Option.noConfusion h
                  · rw [if_neg hE2] at h
                    obtain ⟨hlitv, hflit, hcs⟩ := matchLit_sound hlit
                    obtain ⟨hwn1, hpd1⟩ := parseNum_sound hp1
                    have ha1 : AllSpaces (r0.takeWhile isSpaceC) :=
                      fun x hx => mem_takeWhile_p hx
                    have ha2 : AllSpaces (r2.takeWhile isSpaceC) :=
                      fun x hx => mem_takeWhile_p hx
                    have ha3 : AllSpaces (r4.takeWhile isSpaceC) :=
                      fun x hx => mem_takeWhile_p hx
                    have hn1 : r0.takeWhile isSpaceC ≠ [] := ne_nil_of_not_isEmpty hE1
                    have hn3 : r4.takeWhile isSpaceC ≠ [] := ne_nil_of_not_isEmpty hE2
                    cases hr5 : r4.dropWhile isSpaceC with
                    | nil =>
                        simp only [hr5] at h
                        rw [show parseNum ([] : List Char) = none from rfl] at h
                        exact Option.noConfusion h
                    | cons c2 t =>
                        simp only [hr5] at h
                        by_cases hc2 : c2 = '$'
                        · subst hc2
                          rw [if_pos rfl] at h
                          cases hp2 : parseNum (t.dropWhile isSpaceC) with
                          | none =>
                              simp only [hp2] at h
                              exact Option.noConfusion h
                          | some q =>
                              obtain ⟨d1, r7⟩ := q
                              simp only [hp2, Option.some.injEq, Prod.mk.injEq] at h
                              obtain ⟨hn, hd⟩ := h
                              subst hn
                              subst hd
                              obtain ⟨hwd1, hpd2⟩ := parseNum_sound hp2
                              have ha4 : AllSpaces (t.takeWhile isSpaceC) :=
                                fun x hx => mem_takeWhile_p hx
                              set s1v := r0.takeWhile isSpaceC with hs1v
                              set s2v := r2.takeWhile isSpaceC with hs2v
                              set s3v := r4.takeWhile isSpaceC with hs3v
                              set s4v := t.takeWhile isSpaceC with hs4v
                              have e0 : r0 = s1v ++ (n1.render ++ r2) := by
                                rw [hs1v]
                                conv_lhs => rw [← List.takeWhile_append_dropWhile
                                  (p := isSpaceC) (l := r0)]
                                rw [hpd1]
                              have e1 : r2 = s2v ++ (c :: r4) := by
                                rw [hs2v]
                                conv_lhs => rw [← List.takeWhile_append_dropWhile
                                  (p := isSpaceC) (l := r2)]
                                rw [hd2]
                              have e2 : r4 = s3v ++ ('$' :: t) := by
                                rw [hs3v]
                                conv_lhs => rw [← List.takeWhile_append_dropWhile
                                  (p := isSpaceC) (l := r4)]
                                rw [hr5]
                              have e3 : t = s4v ++ (d1.render ++ r7) := by
                                rw [hs4v]
                                conv_lhs => rw [← List.takeWhile_append_dropWhile
                                  (p := isSpaceC) (l := t)]
                                rw [hpd2]
                              refine ⟨hlitv, s1v, n1, s2v, c, s3v, ['$'], s4v, d1, r7,
                                hflit, ha1, hn1, hwn1, ha2, hcu, ha3, hn3, Or.inr rfl,
                                ha4, hwd1, rfl, rfl, ?_⟩
                              rw [hcs, e0, e1, e2, e3]
                              simp [List.append_assoc]
                        · rw [if_neg hc2] at h
                          cases hp2 : parseNum (c2 :: t) with
                          | none =>
                              simp only [hp2] at h
                              exact Option.noConfusion h
                          | some q =>
                              obtain ⟨d1, r7⟩ := q
                              simp only [hp2, Option.some.injEq, Prod.mk.injEq] at h
                              obtain ⟨hn, hd⟩ := h
                              subst hn
                              subst hd
                              obtain ⟨hwd1, hpd2⟩ := parseNum_sound hp2
                              set s1v := r0.takeWhile isSpaceC with hs1v
                              set s2v := r2.takeWhile isSpaceC with hs2v
                              set s3v := r4.takeWhile isSpaceC with hs3v
                              have e0 : r0 = s1v ++ (n1.render ++ r2) := by
                                rw [hs1v]
                                conv_lhs => rw [← List.takeWhile_append_dropWhile
                                  (p := isSpaceC) (l := r0)]
                                rw [hpd1]
                              have e1 : r2 = s2v ++ (c :: r4) := by
                                rw [hs2v]
                                conv_lhs => rw [← List.takeWhile_append_dropWhile
                                  (p := isSpaceC) (l := r2)]
                                rw [hd2]
                              have e2 : r4 = s3v ++ (c2 :: t) := by
                                rw [hs3v]
                                conv_lhs => rw [← List.takeWhile_append_dropWhile
                                  (p := isSpaceC) (l := r4)]
                                rw [hr5]
                              refine ⟨hlitv, s1v, n1, s2v, c, s3v, [], [], d1, r7,
                                hflit, ha1, hn1, hwn1, ha2, hcu, ha3, hn3, Or.inl rfl,
                                (fun x hx => by simp at hx), hwd1, rfl, rfl, ?_⟩
                              rw [hcs, e0, e1, e2, hpd2]
                              simp [List.append_assoc]
                · rw [if_neg hcu] at h
                  exact Option.noConfusion h

theorem headerSearch_isSome : ∀ (pre suffix : List Char),
    (headerMatchAt suffix).isSome = true →
    (headerSearch (pre ++ suffix)).isSome = true
  | [], suffix, h => by
      cases suffix with
      | nil => simpa [headerSearch] using h
      | cons c cs =>
          simp only [List.nil_append, headerSearch]
          cases hm : headerMatchAt (c :: cs) with
          | none =>
              rw [hm] at h
              exact absurd h (by simp)
          | some r => simp
  | p :: pre, suffix, h => by
      simp only [List.cons_append, headerSearch]
      cases hm : headerMatchAt (p :: (pre ++ suffix)) with
      | none => simpa using headerSearch_isSome pre suffix h
      | some r => simp

theorem headerSearch_sound : ∀ {cs : List Char} {n d : Numeral},
    headerSearch cs = some (n, d) →
    ∃ pre suffix, cs = pre ++ suffix ∧ headerMatchAt suffix = some (n, d)
  | [], n, d, h => ⟨[], [], rfl, h⟩
  | c :: cs, n, d, h => by
      simp only [headerSearch] at h
      cases hm : headerMatchAt (c :: cs) with
      | some r =>
          simp only [hm, Option.some.injEq] at h
          exact ⟨[], c :: cs, rfl, by rw [hm, h]⟩
      | none =>
          simp only [hm] at h
          obtain ⟨pre, suf, heq, hmat⟩ := headerSearch_sound h
          exact ⟨c :: pre, suf, by rw [List.cons_append, heq], hmat⟩

/-! ## Claim C6: header parsing (corrected) -/

/-- Counterexample to C6 as stated: the line `2u $10` contains
`<count>"u"` followed by an optional currency symbol and `<amount>` (the
claimed pattern, with no command token), yet `parse_header` fails: the
code's regex requires the literal `!allocate` before the count. -/
theorem claim6_counterexample :
    ClaimHeaderPattern (String.mk ['2', 'u', ' ', '$', '1', '0']).data ∧
    parse_header (String.mk ['2', 'u', ' ', '$', '1', '0']) = .error headerErrMsg := by
  constructor
  · exact ⟨[], ⟨['2'], none⟩, [' '], ['$'], [], ⟨['1', '0'], none⟩, [],
      ⟨by simp, by decide, by simp⟩, ⟨by simp, by decide, by simp⟩,
      (fun c hc => by simp at hc; subst hc; decide),
      by simp [AllSpaces], Or.inr rfl, by decide⟩
  · rfl

/-- C6 (amended). `parse_header(line)` succeeds, returning the values
of the two captured number tokens, exactly on lines containing the code's
pattern: the literal `!allocate` (case-insensitive), whitespace, `<count>`,
optional whitespace, `u`/`U`, whitespace, an optional `$`, optional
whitespace, `<amount>`, with arbitrary surrounding text.  The command token
is required (it is not optional as the original claim states), and it fails
exactly when that pattern is absent. -/
theorem claim6_amended (line : String) :
    ((∃ p, parse_header line = .ok p) ↔ HeaderPattern line.data) ∧
    (∀ u a, parse_header line = .ok (u, a) → HeaderPatternVal line.data u a) := by
  have hsound : ∀ u a, parse_header line = .ok (u, a) →
      HeaderPatternVal line.data u a := by
    intro u a hok
    unfold parse_header at hok
    cases hs : headerSearch line.data with
    | none =>
        simp only [hs] at hok
        exact Except.noConfusion hok
    | some p =>
        obtain ⟨n1, d1⟩ := p
        simp only [hs, Except.ok.injEq, Prod.mk.injEq] at hok
        obtain ⟨hu, ha⟩ := hok
        subst hu
        subst ha
        obtain ⟨pre, suf, heq, hmat⟩ := headerSearch_sound hs
        exact ⟨pre, suf, heq, headerMatchAt_sound hmat⟩
  refine ⟨⟨?_, ?_⟩, hsound⟩
  · rintro ⟨⟨u, a⟩, hok⟩
    exact ⟨u, a, hsound u a hok⟩
  · rintro ⟨u, a, pre, suf, heq, hat⟩
    have hsome := headerSearch_isSome pre suf (headerMatchAt_isSome hat)
    rw [← heq] at hsome
    unfold parse_header
    cases hs : headerSearch line.data with
    | none =>
        rw [hs] at hsome
        exact absurd hsome (by simp)
    | some p =>
        obtain ⟨n1, d1⟩ := p
        simp only [hs]
        exact ⟨(n1.val, d1.val), rfl⟩

theorem claim6_witness :
    HeaderPatternVal (String.mk ['!', 'a', 'l', 'l', 'o', 'c', 'a', 't', 'e',
        ' ', '1', 'u', ' ', '$', '1', '0']).data
      (Numeral.val ⟨['1'], none⟩) (Numeral.val ⟨['1', '0'], none⟩) :=
  (claim6_amended (String.mk ['!', 'a', 'l', 'l', 'o', 'c', 'a', 't', 'e',
      ' ', '1', 'u', ' ', '$', '1', '0'])).2
    (Numeral.val ⟨['1'], none⟩) (Numeral.val ⟨['1', '0'], none⟩) rfl
